import Mathlib

/-!
# A file-backed document store: model and verified properties

The development embeds the `Driver` of `golang-database/main.go`: its
constructor `New`, the four operations `Write`, `Read`, `ReadAll`, `Delete`
and the lock lookup `getOrCreateMutex`.

The Go standard library the driver calls is modelled first:

* `filepath.Clean`, `filepath.Join`, `filepath.Ext` (Unix flavour), at the
  level of path elements;
* a file system, a finite map from resolved paths to files and directories,
  with `os.Stat`, `os.MkdirAll`, `os.WriteFile`, `os.Rename`, `os.Remove`,
  `os.ReadFile`, `os.ReadDir`.  Paths are resolved lexically (no symbolic or
  hard links); a call fails for a reason visible in the file-system state
  (`ENOENT`, `ENOTDIR`, `EISDIR`, ...), because the name is illegal (`EINVAL`
  for a NUL byte, `ENAMETOOLONG`), or because the environment makes it fail
  (`Faults`);
* the JSON serializer, a parameter (`Codec`).

Go strings are modelled by `String`, file contents included.  File modes and
the logger are left out: they do not affect what the operations return.

Every operation returns a `Run`: its result, the driver and the file system it
leaves, and its steps in order (locks, map accesses, system calls with the file
system each one leaves).
-/

namespace GoGo

/-! ## Paths -/

/-- The path separator of `path/filepath` on Unix. -/
def Separator : Char := '/'

/-- The elements of a path: the text between separators (`"a//b"` has the
elements `"a"`, `""`, `"b"`). -/
def splitSep : List Char → List String
  | [] => [""]
  | c :: cs =>
    if c = Separator then "" :: splitSep cs
    else
      match splitSep cs with
      | [] => [String.mk [c]]
      | e :: es => String.mk (c :: e.data) :: es

/-- The elements joined by separators, as characters. -/
def joinSep : List String → List Char
  | [] => []
  | [e] => e.data
  | e :: es => e.data ++ Separator :: joinSep es

/-- A resolved path: whether it starts at the root directory, and its elements
from the top down.  A relative path may start with `..` elements, which climb
from the working directory. -/
structure Key where
  rooted : Bool
  elems : List String
  deriving DecidableEq, Repr

/-- One step of `filepath.Clean`: `stack` holds the elements kept so far, the
last one first.  Empty and `.` elements are dropped; `..` removes the element
before it, is dropped at the root, and is kept at the start of a relative
path; any other element is kept. -/
def cleanStep (rooted : Bool) (stack : List String) (e : String) : List String :=
  if e = "" ∨ e = "." then stack
  else if e = ".." then
    match stack with
    | [] => if rooted then [] else [".."]
    | top :: rest => if top = ".." then ".." :: top :: rest else rest
  else e :: stack

/-- The elements `filepath.Clean` keeps, the last one first. -/
def cleanStack (rooted : Bool) (stack : List String) (es : List String) : List String :=
  es.foldl (cleanStep rooted) stack

/-- Whether the path starts with a separator. -/
def isRooted (path : String) : Bool :=
  match path.data with
  | c :: _ => c = Separator
  | [] => false

/-- Path resolution, as `filepath.Clean` and the kernel do it for the paths of
this program: split at separators, then `cleanStep` over the elements. -/
def namei (path : String) : Key :=
  ⟨isRooted path, (cleanStack (isRooted path) [] (splitSep path.data)).reverse⟩

/-- The text of a resolved path: `/` for the root, `.` for the working
directory. -/
def Key.render (k : Key) : String :=
  if k.rooted then String.mk (Separator :: joinSep k.elems)
  else if k.elems = [] then "." else String.mk (joinSep k.elems)

end GoGo

namespace GoGo.filepath

/-- Go's `filepath.Clean`: the shortest path naming the same file by purely
lexical processing; the empty path becomes `.`. -/
def Clean (path : String) : String :=
  if path = "" then "." else (namei path).render

/-- Go's `strings.Join(elem, "/")`. -/
def joinStrings : List String → String
  | [] => ""
  | [e] => e
  | e :: es => e ++ "/" ++ joinStrings es

/-- Go's `filepath.Join`: leading empty elements are skipped, the rest is
joined with separators and cleaned; `""` when every element is empty. -/
def Join : List String → String
  | [] => ""
  | e :: es => if e = "" then Join es else Clean (joinStrings (e :: es))

/-- The scan of `filepath.Ext` over the reversed path: `acc` is the text
already passed. -/
def extScan : List Char → List Char → List Char
  | [], _ => []
  | c :: cs, acc =>
    if c = Separator then []
    else if c = '.' then c :: acc
    else extScan cs (c :: acc)

/-- Go's `filepath.Ext`: the suffix starting at the last dot of the last
element, or `""`. -/
def Ext (path : String) : String :=
  String.mk (extScan path.data.reverse [])

end GoGo.filepath

namespace GoGo

/-! ## The file system -/

/-- What a path names: a regular file with its content, or a directory. -/
inductive Node
  | file (data : String)
  | dir
  deriving DecidableEq, Repr

/-- The file system: the nodes that exist, by resolved path.  The first entry
for a path counts. -/
abbrev FS := List (Key × Node)

/-- The error numbers the model distinguishes.  `EACCES` and `ENOSPC` only
arise from the environment (`Faults`). -/
inductive Errno
  | ENOENT | ENOTDIR | EISDIR | ENOTEMPTY | EBUSY | EINVAL | EACCES | ENOSPC | ENAMETOOLONG
  deriving DecidableEq, Repr

/-- Go `error` values: `errors.New`, `*fs.PathError`, `*os.LinkError`, and an
error of `encoding/json`. -/
inductive error
  | New (text : String)
  | PathError (op path : String) (err : Errno)
  | LinkError (op old new : String) (err : Errno)
  | JSON (text : String)
  deriving DecidableEq, Repr

deriving instance DecidableEq for Except

/-- The directories that always exist: the root, the working directory, and
what `..` elements alone reach from it. -/
def Key.implicit (k : Key) : Bool :=
  k.elems.all (fun e => e = "..")

/-- The longest path name a system call takes, in bytes (`PATH_MAX` of Linux
less the terminator). -/
def pathMax : Nat := 4095

/-- The longest path element, in bytes (`NAME_MAX`). -/
def nameMax : Nat := 255

/-- Whether the name has a NUL byte. -/
def hasNul (name : String) : Bool :=
  name.data.contains (Char.ofNat 0)

/-- Whether a resolved path is a legal name: no NUL byte, at most `pathMax`
bytes, no element longer than `nameMax`. -/
def Key.legal (k : Key) : Bool :=
  !hasNul k.render && decide (k.render.utf8ByteSize ≤ pathMax) &&
    k.elems.all (fun e => decide (e.utf8ByteSize ≤ nameMax))

/-- The error of a lookup that finds nothing at `k`: `ENAMETOOLONG` when the
last element of `k` is longer than `nameMax`, `ENOENT` otherwise. -/
def missingErrno (k : Key) : Errno :=
  match k.elems.getLast? with
  | some e => if nameMax < e.utf8ByteSize then Errno.ENAMETOOLONG else Errno.ENOENT
  | none => Errno.ENOENT

/-- The error of a failed lookup of `name`, given the error `e` of the walk: a
name with a NUL byte is `EINVAL` and a name longer than `pathMax` is
`ENAMETOOLONG`, whatever the walk found. -/
def nameErrno (name : String) (e : Errno) : Errno :=
  if hasNul name then Errno.EINVAL
  else if pathMax < name.utf8ByteSize then Errno.ENAMETOOLONG
  else e

/-- The first entry of the list for a path. -/
def lookup : FS → Key → Option Node
  | [], _ => none
  | (k', n) :: rest, k => if k' = k then some n else lookup rest k

/-- What exists at a resolved path.  The directories that always exist apart,
nothing exists under an illegal name. -/
def node (fs : FS) (k : Key) : Option Node :=
  if k.implicit then some Node.dir else if k.legal then lookup fs k else none

/-- The file system without the node at `k`. -/
def erase : FS → Key → FS
  | [], _ => []
  | (k', n) :: rest, k => if k' = k then erase rest k else (k', n) :: erase rest k

/-- The file system with `n` at `k`. -/
def set (fs : FS) (k : Key) (n : Node) : FS :=
  (k, n) :: erase fs k

/-- The proper initial segments of a list of elements, the shortest first. -/
def stems : List String → List (List String)
  | [] => []
  | e :: es => [] :: (stems es).map (fun s => e :: s)

/-- The directories a path goes through, from the top down. -/
def ancestors (k : Key) : List Key :=
  (stems k.elems).map (fun s => ⟨k.rooted, s⟩)

/-- Walks the directories of a path: the first one that is missing gives
`ENOENT`, or `ENAMETOOLONG` for an element that is too long; the first one
that is a regular file gives `ENOTDIR`. -/
def walkDirs (fs : FS) : List Key → Option Errno
  | [] => none
  | a :: rest =>
    match node fs a with
    | some Node.dir => walkDirs fs rest
    | some (Node.file _) => some Errno.ENOTDIR
    | none => some (missingErrno a)

/-- Resolves a path name for a system call: the empty name is `ENOENT`, and every
directory on the way must exist.  Nothing exists under an illegal name (a NUL
byte, an element or a path that is too long), so the limits on names show when
the lookup fails (`nameErrno`, `missingErrno`) and when a node is created. -/
def resolve (fs : FS) (name : String) : Except Errno Key :=
  if name = "" then Except.error Errno.ENOENT
  else
    match walkDirs fs (ancestors (namei name)) with
    | some e => Except.error (nameErrno name e)
    | none => Except.ok (namei name)

/-- The names of the entries of directory `k`, sorted, each once. -/
def entries (fs : FS) (k : Key) : List String :=
  ((fs.filterMap (fun e =>
    if e.1.legal ∧ e.1.rooted = k.rooted ∧ e.1.elems ≠ [] ∧ e.1.elems.dropLast = k.elems
    then e.1.elems.getLast? else none)).dedup).insertionSort (fun a b => a.data ≤ b.data)

/-- The key of a node after the directory `old` has been renamed to `new`. -/
def rebase (old new k : Key) : Key :=
  if k.rooted = old.rooted ∧ old.elems.isPrefixOf k.elems
  then ⟨new.rooted, new.elems ++ k.elems.drop old.elems.length⟩ else k

/-- What the environment does to the system calls of one operation, beyond
what the file-system state decides.
* `stat`, `rename`, `remove`, `readFile`, `readDir`: the call fails with `EACCES`
  and changes nothing;
* `mkdir = some n`: after `n` directories have been created, the next creation
  fails with `EACCES`;
* `write = some none`: the file cannot be opened; `write = some (some n)`: the
  file is opened and truncated, and the write fails with `ENOSPC` after `n`
  characters. -/
structure Faults where
  stat : Bool
  mkdir : Option Nat
  write : Option (Option Nat)
  rename : Bool
  remove : Bool
  readFile : Bool
  readDir : Bool

/-- The environment in which a system call fails only for a reason visible in
the file-system state. -/
def Faults.none : Faults :=
  ⟨false, Option.none, Option.none, false, false, false, false⟩

end GoGo

namespace GoGo.os

/-- Go's `os.IsNotExist`. -/
def IsNotExist : error → Bool
  | error.PathError _ _ Errno.ENOENT => true
  | error.LinkError _ _ _ Errno.ENOENT => true
  | _ => false

/-- Go's `os.Stat`. -/
def Stat (fault : Bool) (fs : FS) (name : String) : Except error Node :=
  if fault then Except.error (error.PathError "stat" name Errno.EACCES)
  else
    match resolve fs name with
    | Except.error e => Except.error (error.PathError "stat" name e)
    | Except.ok k =>
      match node fs k with
      | none => Except.error (error.PathError "stat" name (nameErrno name (missingErrno k)))
      | some n => Except.ok n

/-- One directory creation against the budget of the environment: the budget
left, or `none` when the creation is denied. -/
def spend : Option Nat → Option (Option Nat)
  | none => some none
  | some 0 => none
  | some (n + 1) => some (some n)

/-- Creates the missing directories of the list in turn, within the budget of
the environment; a directory whose name is illegal is not created. -/
def mkdirs : List Key → Option Nat → FS → Option Errno × FS
  | [], _, fs => (none, fs)
  | k :: ks, budget, fs =>
    match node fs k with
    | some Node.dir => mkdirs ks budget fs
    | some (Node.file _) => (some Errno.ENOTDIR, fs)
    | none =>
      if k.legal then
        match spend budget with
        | none => (some Errno.EACCES, fs)
        | some left => mkdirs ks left (set fs k Node.dir)
      else (some (nameErrno k.render Errno.ENAMETOOLONG), fs)

/-- Go's `os.MkdirAll`: creates the directory and its missing parents; fails
when the path or one of its parents is a regular file. -/
def MkdirAll (fault : Option Nat) (fs : FS) (path : String) : Option error × FS :=
  if path = "" then (some (error.PathError "mkdir" path Errno.ENOENT), fs)
  else
    match mkdirs (ancestors (namei path) ++ [namei path]) fault fs with
    | (some e, fs1) => (some (error.PathError "mkdir" path e), fs1)
    | (none, fs1) => (none, fs1)

/-- Go's `os.WriteFile`: opens the file for writing (created if missing and
the name is legal, truncated), writes the data, closes it. -/
def WriteFile (fault : Option (Option Nat)) (fs : FS) (name : String) (data : String) :
    Option error × FS :=
  match fault with
  | some none => (some (error.PathError "open" name Errno.EACCES), fs)
  | _ =>
    match resolve fs name with
    | Except.error e => (some (error.PathError "open" name e), fs)
    | Except.ok k =>
      match node fs k with
      | some Node.dir => (some (error.PathError "open" name Errno.EISDIR), fs)
      | _ =>
        if k.legal then
          match fault with
          | some (some n) =>
            (some (error.PathError "write" name Errno.ENOSPC),
              set fs k (Node.file (String.mk (data.data.take n))))
          | _ => (none, set fs k (Node.file data))
        else (some (error.PathError "open" name (nameErrno name Errno.ENAMETOOLONG)), fs)

/-- Go's `os.ReadFile`. -/
def ReadFile (fault : Bool) (fs : FS) (name : String) : Except error String :=
  if fault then Except.error (error.PathError "open" name Errno.EACCES)
  else
    match resolve fs name with
    | Except.error e => Except.error (error.PathError "open" name e)
    | Except.ok k =>
      match node fs k with
      | none => Except.error (error.PathError "open" name (nameErrno name (missingErrno k)))
      | some Node.dir => Except.error (error.PathError "read" name Errno.EISDIR)
      | some (Node.file data) => Except.ok data

/-- Go's `os.ReadDir`: the names of the entries of a directory, sorted. -/
def ReadDir (fault : Bool) (fs : FS) (name : String) : Except error (List String) :=
  if fault then Except.error (error.PathError "open" name Errno.EACCES)
  else
    match resolve fs name with
    | Except.error e => Except.error (error.PathError "open" name e)
    | Except.ok k =>
      match node fs k with
      | none => Except.error (error.PathError "open" name (nameErrno name (missingErrno k)))
      | some (Node.file _) => Except.error (error.PathError "readdirent" name Errno.ENOTDIR)
      | some Node.dir => Except.ok (entries fs k)

/-- Go's `os.Remove`: removes a file or an empty directory. -/
def Remove (fault : Bool) (fs : FS) (name : String) : Option error × FS :=
  if fault then (some (error.PathError "remove" name Errno.EACCES), fs)
  else
    match resolve fs name with
    | Except.error e => (some (error.PathError "remove" name e), fs)
    | Except.ok k =>
      match node fs k with
      | none => (some (error.PathError "remove" name (nameErrno name (missingErrno k))), fs)
      | some (Node.file _) => (none, erase fs k)
      | some Node.dir =>
        if k.implicit then (some (error.PathError "remove" name Errno.EBUSY), fs)
        else if entries fs k ≠ [] then (some (error.PathError "remove" name Errno.ENOTEMPTY), fs)
        else (none, erase fs k)

/-- Go's `os.Rename`, one atomic step: a file replaces the file at the new
path, if any; a directory moves with everything below it, onto nothing or onto
an empty directory.  A new path that names nothing must be a legal name. -/
def Rename (fault : Bool) (fs : FS) (oldpath newpath : String) : Option error × FS :=
  if fault then (some (error.LinkError "rename" oldpath newpath Errno.EACCES), fs)
  else
    match resolve fs oldpath, resolve fs newpath with
    | Except.error e, _ => (some (error.LinkError "rename" oldpath newpath e), fs)
    | _, Except.error e => (some (error.LinkError "rename" oldpath newpath e), fs)
    | Except.ok ko, Except.ok kn =>
      match node fs ko with
      | none =>
        (some (error.LinkError "rename" oldpath newpath (nameErrno oldpath (missingErrno ko))),
          fs)
      | some (Node.file data) =>
        if ko = kn then (none, fs)
        else
          match node fs kn with
          | some Node.dir => (some (error.LinkError "rename" oldpath newpath Errno.EISDIR), fs)
          | _ =>
            if kn.legal then (none, set (erase fs ko) kn (Node.file data))
            else
              (some (error.LinkError "rename" oldpath newpath
                (nameErrno newpath Errno.ENAMETOOLONG)), fs)
      | some Node.dir =>
        if ko = kn then (none, fs)
        else if ko.implicit ∨ kn.implicit then
          (some (error.LinkError "rename" oldpath newpath Errno.EBUSY), fs)
        else if ko.rooted = kn.rooted ∧ ko.elems.isPrefixOf kn.elems then
          (some (error.LinkError "rename" oldpath newpath Errno.EINVAL), fs)
        else
          match node fs kn with
          | some (Node.file _) =>
            (some (error.LinkError "rename" oldpath newpath Errno.ENOTDIR), fs)
          | some Node.dir =>
            if entries fs kn ≠ [] then
              (some (error.LinkError "rename" oldpath newpath Errno.ENOTEMPTY), fs)
            else (none, (erase fs kn).map (fun e => (rebase ko kn e.1, e.2)))
          | none =>
            if kn.legal then (none, fs.map (fun e => (rebase ko kn e.1, e.2)))
            else
              (some (error.LinkError "rename" oldpath newpath
                (nameErrno newpath Errno.ENAMETOOLONG)), fs)

end GoGo.os

namespace GoGo
open filepath

/-! ## The driver -/

/-- A lock: the guard `d.mutex` of the driver, or the lock of a collection, by
its address. -/
inductive Mutex
  | guard
  | coll (addr : Nat)
  deriving DecidableEq, Repr

/-- The system calls of the driver. -/
inductive Call
  | Stat | MkdirAll | WriteFile | Rename | Remove | ReadFile | ReadDir
  deriving DecidableEq, Repr

/-- A step of an operation: a lock taken or released, an access to the map
`d.mutexes`, or a system call with its path, whether it succeeded, and the
file system it leaves. -/
inductive Event
  | Lock (m : Mutex)
  | Unlock (m : Mutex)
  | mapGet (collection : String)
  | mapPut (collection : String) (addr : Nat)
  | sys (call : Call) (path : String) (ok : Bool) (after : FS)
  deriving DecidableEq, Repr

/-- A Go map with string keys: the value bound to a key. -/
def mapGet {β : Type} : List (String × β) → String → Option β
  | [], _ => none
  | (k', v) :: rest, k => if k' = k then some v else mapGet rest k

/-- A Go map with string keys: the map without the key. -/
def mapDelete {β : Type} : List (String × β) → String → List (String × β)
  | [], _ => []
  | (k', v) :: rest, k => if k' = k then mapDelete rest k else (k', v) :: mapDelete rest k

/-- A Go map with string keys: the assignment `m[k] = v`. -/
def mapSet {β : Type} (m : List (String × β)) (k : String) (v : β) : List (String × β) :=
  (k, v) :: mapDelete m k

/-- The address of a newly allocated lock: one that no lock of the map has. -/
def freshAddr (m : List (String × Nat)) : Nat :=
  (m.map (fun e => e.2)).foldr max 0 + 1

/-- The `Driver` struct: the map from collection name to lock and the root
directory.  The guard `mutex` is free between operations and appears in the
steps only; the logger does not affect control flow. -/
structure Driver where
  mutexes : List (String × Nat)
  dir : String
  deriving DecidableEq, Repr

/-- The outcome of an operation: what it returns, the driver and the file
system it leaves, and its steps in order. -/
structure Run (α : Type) where
  ret : α
  d : Driver
  fs : FS
  log : List Event

/-- The serializer: `json.MarshalIndent(v, "", "\t")` and `json.Unmarshal` into
a destination of type `V`. -/
structure Codec (V : Type) where
  MarshalIndent : V → Except error String
  Unmarshal : String → Except error V

/-- The method `getOrCreateMutex`: the lock of the collection, created and bound
when the map has none; the guard is held meanwhile. -/
def Driver.getOrCreateMutex (d : Driver) (collection : String) : Nat × Driver × List Event :=
  match mapGet d.mutexes collection with
  | some mutex =>
    (mutex, d, [Event.Lock Mutex.guard, Event.mapGet collection, Event.Unlock Mutex.guard])
  | none =>
    let mutex := freshAddr d.mutexes
    (mutex, { d with mutexes := mapSet d.mutexes collection mutex },
      [Event.Lock Mutex.guard, Event.mapGet collection, Event.mapPut collection mutex,
        Event.Unlock Mutex.guard])

/-- The function `New`: the driver for the cleaned directory, which is created
with its parents unless `os.Stat` succeeds on it. -/
def New (env : Faults) (fs : FS) (dir : String) : Run (Option error) :=
  let dir := Clean dir
  let driver : Driver := ⟨[], dir⟩
  match os.Stat env.stat fs dir with
  | Except.ok _ => ⟨none, driver, fs, [Event.sys Call.Stat dir true fs]⟩
  | Except.error _ =>
    match os.MkdirAll env.mkdir fs dir with
    | (err, fs1) =>
      ⟨err, driver, fs1,
        [Event.sys Call.Stat dir false fs, Event.sys Call.MkdirAll dir err.isNone fs1]⟩

/-- The method `Write`. -/
def Driver.Write {V : Type} (env : Faults) (J : Codec V) (d : Driver) (fs : FS)
    (collection resource : String) (v : V) : Run (Option error) :=
  if collection = "" then ⟨some (error.New "collection name cannot be empty"), d, fs, []⟩
  else if resource = "" then ⟨some (error.New "resource name cannot be empty"), d, fs, []⟩
  else
    match d.getOrCreateMutex collection with
    | (mutex, d1, steps) =>
      let enter := steps ++ [Event.Lock (Mutex.coll mutex)]
      let leave := [Event.Unlock (Mutex.coll mutex)]
      let dir := Join [d.dir, collection]
      let finalPath := Join [dir, resource ++ ".json"]
      let tempPath := finalPath ++ ".tmp"
      match os.MkdirAll env.mkdir fs dir with
      | (some err, fs1) =>
        ⟨some err, d1, fs1, enter ++ [Event.sys Call.MkdirAll dir false fs1] ++ leave⟩
      | (none, fs1) =>
        match J.MarshalIndent v with
        | Except.error err =>
          ⟨some err, d1, fs1, enter ++ [Event.sys Call.MkdirAll dir true fs1] ++ leave⟩
        | Except.ok b =>
          let b := b ++ "\n"
          match os.WriteFile env.write fs1 tempPath b with
          | (some err, fs2) =>
            ⟨some err, d1, fs2,
              enter ++ [Event.sys Call.MkdirAll dir true fs1,
                Event.sys Call.WriteFile tempPath false fs2] ++ leave⟩
          | (none, fs2) =>
            match os.Rename env.rename fs2 tempPath finalPath with
            | (err, fs3) =>
              ⟨err, d1, fs3,
                enter ++ [Event.sys Call.MkdirAll dir true fs1,
                  Event.sys Call.WriteFile tempPath true fs2,
                  Event.sys Call.Rename finalPath err.isNone fs3] ++ leave⟩

/-- The loop of `ReadAll` over the directory entries: every entry with the
extension `.json` is read and stored under its file name. -/
def Driver.readAllLoop (env : Faults) (fs : FS) (dir : String) :
    List String → List (String × String) →
      Except error (List (String × String)) × List Event
  | [], records => (Except.ok records, [])
  | name :: files, records =>
    if Ext name = ".json" then
      match os.ReadFile env.readFile fs (Join [dir, name]) with
      | Except.error err =>
        (Except.error err, [Event.sys Call.ReadFile (Join [dir, name]) false fs])
      | Except.ok data =>
        ((Driver.readAllLoop env fs dir files (mapSet records name data)).1,
          Event.sys Call.ReadFile (Join [dir, name]) true fs ::
            (Driver.readAllLoop env fs dir files (mapSet records name data)).2)
    else Driver.readAllLoop env fs dir files records

/-- The method `ReadAll`. -/
def Driver.ReadAll (env : Faults) (d : Driver) (fs : FS) (collection : String) :
    Run (Except error (List (String × String))) :=
  let dir := Join [d.dir, collection]
  match os.ReadDir env.readDir fs dir with
  | Except.error err =>
    ⟨Except.error err, d, fs,
      [Event.Lock Mutex.guard, Event.sys Call.ReadDir dir false fs, Event.Unlock Mutex.guard]⟩
  | Except.ok files =>
    ⟨(Driver.readAllLoop env fs dir files []).1, d, fs,
      [Event.Lock Mutex.guard, Event.sys Call.ReadDir dir true fs] ++
        (Driver.readAllLoop env fs dir files []).2 ++ [Event.Unlock Mutex.guard]⟩

/-- The test `os.IsNotExist(err)` on the result of `os.Stat`. -/
def statNotExist (r : Except error Node) : Bool :=
  match r with
  | Except.error err => os.IsNotExist err
  | Except.ok _ => false

/-- Whether a call returned without error. -/
def succeeded {α : Type} (r : Except error α) : Bool :=
  match r with
  | Except.error _ => false
  | Except.ok _ => true

/-- The method `Read`; the value it returns is what the destination holds. -/
def Driver.Read {V : Type} (env : Faults) (J : Codec V) (d : Driver) (fs : FS)
    (collection resource : String) : Run (Except error V) :=
  if collection = "" then
    ⟨Except.error (error.New "collection name cannot be empty"), d, fs, []⟩
  else if resource = "" then
    ⟨Except.error (error.New "resource name cannot be empty"), d, fs, []⟩
  else
    match d.getOrCreateMutex collection with
    | (mutex, d1, steps) =>
      let enter := steps ++ [Event.Lock (Mutex.coll mutex)]
      let leave := [Event.Unlock (Mutex.coll mutex)]
      let record := Join [d.dir, collection, resource ++ ".json"]
      let st := os.Stat env.stat fs record
      if statNotExist st then
        ⟨Except.error (error.New "resource not found"), d1, fs,
          enter ++ [Event.sys Call.Stat record false fs] ++ leave⟩
      else
        match os.ReadFile env.readFile fs record with
        | Except.error err =>
          ⟨Except.error err, d1, fs,
            enter ++ [Event.sys Call.Stat record (succeeded st) fs,
              Event.sys Call.ReadFile record false fs] ++ leave⟩
        | Except.ok b =>
          ⟨J.Unmarshal b, d1, fs,
            enter ++ [Event.sys Call.Stat record (succeeded st) fs,
              Event.sys Call.ReadFile record true fs] ++ leave⟩

/-- The method `Delete`. -/
def Driver.Delete (env : Faults) (d : Driver) (fs : FS) (collection resource : String) :
    Run (Option error) :=
  if collection = "" then ⟨some (error.New "collection name cannot be empty"), d, fs, []⟩
  else if resource = "" then ⟨some (error.New "resource name cannot be empty"), d, fs, []⟩
  else
    match d.getOrCreateMutex collection with
    | (mutex, d1, steps) =>
      let enter := steps ++ [Event.Lock (Mutex.coll mutex)]
      let leave := [Event.Unlock (Mutex.coll mutex)]
      let record := Join [d.dir, collection, resource ++ ".json"]
      let st := os.Stat env.stat fs record
      if statNotExist st then
        ⟨some (error.New "resource not found"), d1, fs,
          enter ++ [Event.sys Call.Stat record false fs] ++ leave⟩
      else
        match os.Remove env.remove fs record with
        | (err, fs1) =>
          ⟨err, d1, fs1,
            enter ++ [Event.sys Call.Stat record (succeeded st) fs,
              Event.sys Call.Remove record err.isNone fs1] ++ leave⟩

/-- Whether a regular file is there. -/
def isFile : Option Node → Bool
  | some (Node.file _) => true
  | _ => false

/-- The content of the regular file a path names, if there is one. -/
def fileAt (fs : FS) (path : String) : Option String :=
  match node fs (namei path) with
  | some (Node.file data) => some data
  | _ => none

/-- A serializer for booleans, for concrete runs. -/
def boolCodec : Codec Bool where
  MarshalIndent := fun b => Except.ok (if b then "true" else "false")
  Unmarshal := fun s =>
    if s = "true\n" then Except.ok true
    else if s = "false\n" then Except.ok false
    else Except.error (error.JSON "invalid character")

/-! ## Predicates and states of the statements -/

/-- An element that `filepath.Clean` keeps as a name. -/
def isReal (e : String) : Prop :=
  e ≠ "" ∧ e ≠ "." ∧ e ≠ ".." ∧ Separator ∉ e.data

/-- The shape of the stack of `filepath.Clean`, the last element first: names
above `..` elements, which only a relative path has. -/
def goodStack (rooted : Bool) : List String → Prop
  | [] => True
  | e :: rest =>
    goodStack rooted rest ∧ (isReal e ∨ (e = ".." ∧ rooted = false ∧ ∀ x ∈ rest, x = ".."))

/-- The discipline of the guard `d.mutex` over the steps of an operation: while
the guard is held, every step up to its release is an access to the map of
locks.  A system call made while the guard is held breaks it.  `held` tells
whether the guard is held before the first step. -/
def guardAroundMapOnly : Bool → List Event → Bool
  | _, [] => true
  | _, Event.Lock Mutex.guard :: es => guardAroundMapOnly true es
  | _, Event.Unlock Mutex.guard :: es => guardAroundMapOnly false es
  | held, Event.mapGet _ :: es => guardAroundMapOnly held es
  | held, Event.mapPut _ _ :: es => guardAroundMapOnly held es
  | held, Event.Lock (Mutex.coll _) :: es => !held && guardAroundMapOnly held es
  | held, Event.Unlock (Mutex.coll _) :: es => !held && guardAroundMapOnly held es
  | held, Event.sys _ _ _ _ :: es => !held && guardAroundMapOnly held es

/-- One operation on the driver: `Step d d'` when `d'` is the driver some call
of `getOrCreateMutex`, `Write`, `Read`, `ReadAll` or `Delete` leaves, started
on `d` with any arguments, file system and environment. -/
inductive Step : Driver → Driver → Prop
  | getOrCreateMutex (d : Driver) (c : String) : Step d (d.getOrCreateMutex c).2.1
  | Write {V : Type} (env : Faults) (J : Codec V) (d : Driver) (fs : FS) (c r : String) (v : V) :
      Step d (d.Write env J fs c r v).d
  | Read {V : Type} (env : Faults) (J : Codec V) (d : Driver) (fs : FS) (c r : String) :
      Step d (d.Read env J fs c r).d
  | ReadAll (env : Faults) (d : Driver) (fs : FS) (c : String) : Step d (d.ReadAll env fs c).d
  | Delete (env : Faults) (d : Driver) (fs : FS) (c r : String) : Step d (d.Delete env fs c r).d

/-- The file system of C4 refuted: `db/a` is a regular file. -/
def fsFileOnTheWay : FS :=
  [(⟨false, ["db"]⟩, Node.dir), (⟨false, ["db", "a"]⟩, Node.file "x")]

/-- The file system of C5 refuted: the collection `db/users` holds a directory
`a`. -/
def fsNestedCollection : FS :=
  [(⟨false, ["db"]⟩, Node.dir), (⟨false, ["db", "users"]⟩, Node.dir),
    (⟨false, ["db", "users", "a"]⟩, Node.dir)]

/-- The two pairs of C9 refuted resolve to this one path. -/
def sharedPath : String := "db/a/b/c.json"

/-! ## Path elements -/

theorem splitSep_ne_nil (l : List Char) : splitSep l ≠ [] := by
  cases l with
  | nil => simp [splitSep]
  | cons c cs =>
    unfold splitSep
    split
    · simp
    · split <;> simp

theorem splitSep_sepFree (l : List Char) : ∀ e ∈ splitSep l, Separator ∉ e.data := by
  induction l with
  | nil => intro e he; simp [splitSep] at he; subst he; simp
  | cons c cs ih =>
    intro e he
    unfold splitSep at he
    split at he
    · rcases List.mem_cons.1 he with h | h
      · subst h; simp
      · exact ih e h
    · rename_i hc
      split at he
      · rename_i heq
        exact absurd heq (splitSep_ne_nil cs)
      · rename_i e0 es heq
        rcases List.mem_cons.1 he with h | h
        · subst h
          have h0 := ih e0 (by rw [heq]; simp)
          simp only [List.mem_cons, not_or]
          exact ⟨fun h => hc h.symm, h0⟩
        · exact ih e (by rw [heq]; simp [h])

theorem splitSep_append_sep (a b : List Char) :
    splitSep (a ++ Separator :: b) = splitSep a ++ splitSep b := by
  induction a with
  | nil => simp [splitSep]
  | cons c cs ih =>
    by_cases hc : c = Separator
    · simp [splitSep, hc, ih]
    · have hne := splitSep_ne_nil cs
      cases hs : splitSep cs with
      | nil => exact absurd hs hne
      | cons e es => simp [splitSep, hc, ih, hs]

theorem splitSep_of_sepFree (l : List Char) (h : Separator ∉ l) :
    splitSep l = [String.mk l] := by
  induction l with
  | nil => rfl
  | cons c cs ih =>
    simp only [List.mem_cons, not_or] at h
    have hc : ¬ c = Separator := fun hh => h.1 hh.symm
    simp [splitSep, hc, ih h.2]

theorem splitSep_append_sepFree (a s : List Char) (h : Separator ∉ s) :
    splitSep (a ++ s) =
      (splitSep a).dropLast ++ [String.mk (((splitSep a).getLast?.getD "").data ++ s)] := by
  induction a with
  | nil => simp [splitSep, splitSep_of_sepFree s h]
  | cons c cs ih =>
    have hne := splitSep_ne_nil cs
    cases hs : splitSep cs with
    | nil => exact absurd hs hne
    | cons e es =>
      rw [hs] at ih
      by_cases hc : c = Separator
      · simp only [List.cons_append, splitSep, hc, if_true, hs]
        simp
        exact ih
      · cases es with
        | nil => simp [splitSep, hc, hs, ih]
        | cons e2 es2 => simp [splitSep, hc, hs, ih]

theorem splitSep_joinSep (es : List String) (hne : es ≠ [])
    (h : ∀ e ∈ es, Separator ∉ e.data) : splitSep (joinSep es) = es := by
  induction es with
  | nil => exact absurd rfl hne
  | cons e rest ih =>
    cases rest with
    | nil =>
      simp only [joinSep]
      rw [splitSep_of_sepFree _ (h e (by simp))]
    | cons e2 rest2 =>
      simp only [joinSep]
      rw [splitSep_append_sep, splitSep_of_sepFree _ (h e (by simp)),
        ih (by simp) (fun x hx => h x (List.mem_cons_of_mem _ hx))]
      simp

theorem goodStack_append_right (r : Bool) (a b : List String) (h : goodStack r (a ++ b)) :
    goodStack r b := by
  induction a with
  | nil => exact h
  | cons e a ih => exact ih h.1

theorem goodStack_sepFree (r : Bool) (stk : List String) (h : goodStack r stk) :
    ∀ e ∈ stk, Separator ∉ e.data := by
  induction stk with
  | nil => intro e he; cases he
  | cons e0 rest ih =>
    intro e he
    rcases List.mem_cons.1 he with h1 | h1
    · subst h1
      rcases h.2 with hr | ⟨hd, _, _⟩
      · exact hr.2.2.2
      · subst hd; decide
    · exact ih h.1 e h1

theorem goodStack_ne_empty (r : Bool) (stk : List String) (h : goodStack r stk) :
    ∀ e ∈ stk, e ≠ "" := by
  induction stk with
  | nil => intro e he; cases he
  | cons e0 rest ih =>
    intro e he
    rcases List.mem_cons.1 he with h1 | h1
    · subst h1
      rcases h.2 with hr | ⟨hd, _, _⟩
      · exact hr.1
      · subst hd; decide
    · exact ih h.1 e h1

theorem cleanStep_real (r : Bool) (stk : List String) (e : String) (h : isReal e) :
    cleanStep r stk e = e :: stk := by
  simp [cleanStep, h.1, h.2.1, h.2.2.1]

theorem cleanStep_good (r : Bool) (stk : List String) (e : String)
    (h : goodStack r stk) (he : Separator ∉ e.data) : goodStack r (cleanStep r stk e) := by
  unfold cleanStep
  split
  · exact h
  · rename_i h1
    split
    · cases stk with
      | nil =>
        cases r
        · simp [goodStack]
        · simp [goodStack]
      | cons top rest =>
        simp only
        split
        · rename_i htop
          refine ⟨h, Or.inr ⟨rfl, ?_, ?_⟩⟩
          · rcases h.2 with hr | ⟨_, hf, _⟩
            · exact absurd htop hr.2.2.1
            · exact hf
          · intro x hx
            rcases List.mem_cons.1 hx with hx | hx
            · rw [hx]; exact htop
            · rcases h.2 with hr | ⟨_, _, hall⟩
              · exact absurd htop hr.2.2.1
              · exact hall x hx
        · exact h.1
    · rename_i h2
      simp only [not_or] at h1
      exact ⟨h, Or.inl ⟨h1.1, h1.2, h2, he⟩⟩

theorem cleanStack_good (r : Bool) (es : List String) :
    ∀ stk : List String, goodStack r stk → (∀ e ∈ es, Separator ∉ e.data) →
      goodStack r (cleanStack r stk es) := by
  induction es with
  | nil => intro stk h _; exact h
  | cons e es ih =>
    intro stk h hs
    exact ih _ (cleanStep_good r stk e h (hs e (by simp)))
      (fun x hx => hs x (List.mem_cons_of_mem _ hx))

theorem cleanStack_append (r : Bool) (stk : List String) (a b : List String) :
    cleanStack r stk (a ++ b) = cleanStack r (cleanStack r stk a) b := by
  simp [cleanStack, List.foldl_append]

/-- Cleaning the elements of a clean path gives them back. -/
theorem cleanStack_replay (r : Bool) (l : List String) :
    ∀ stk : List String, goodStack r (l.reverse ++ stk) →
      cleanStack r stk l = l.reverse ++ stk := by
  induction l with
  | nil => intro stk _; rfl
  | cons e l ih =>
    intro stk h
    have h' : goodStack r (l.reverse ++ (e :: stk)) := by
      simpa using h
    have hstep : cleanStep r stk e = e :: stk := by
      have hg := goodStack_append_right r _ _ h'
      rcases hg.2 with hr | ⟨hd, hf, hall⟩
      · exact cleanStep_real r stk e hr
      · subst hd
        subst hf
        cases stk with
        | nil => simp [cleanStep]
        | cons top rest =>
          have := hall top (by simp)
          subst this
          simp [cleanStep]
    show cleanStack r (cleanStep r stk e) l = (e :: l).reverse ++ stk
    rw [hstep, ih _ h']
    simp

/-- The stack of a path is well formed. -/
theorem namei_good (path : String) :
    goodStack (namei path).rooted (namei path).elems.reverse := by
  simp only [namei, List.reverse_reverse]
  exact cleanStack_good _ _ _ trivial (splitSep_sepFree _)

theorem joinSep_head_not_sep (es : List String) (hne : es ≠ [])
    (h1 : ∀ e ∈ es, e ≠ "") (h2 : ∀ e ∈ es, Separator ∉ e.data) :
    ∃ c cs, joinSep es = c :: cs ∧ c ≠ Separator := by
  cases es with
  | nil => exact absurd rfl hne
  | cons e rest =>
    have he1 := h1 e (by simp)
    have he2 := h2 e (by simp)
    cases hd : e.data with
    | nil => exact absurd (String.ext hd) he1
    | cons c cs =>
      rw [hd] at he2
      simp only [List.mem_cons, not_or] at he2
      cases rest with
      | nil => exact ⟨c, cs, by simp [joinSep, hd], fun h => he2.1 h.symm⟩
      | cons e2 rest2 =>
        exact ⟨c, cs ++ Separator :: joinSep (e2 :: rest2), by simp [joinSep, hd],
          fun h => he2.1 h.symm⟩

/-- Resolving the text of a resolved path gives the path back. -/
theorem namei_render (k : Key) (h : goodStack k.rooted k.elems.reverse) :
    namei k.render = k := by
  obtain ⟨r, es⟩ := k
  simp only at h
  have hsf : ∀ e ∈ es, Separator ∉ e.data := fun e he =>
    goodStack_sepFree r _ h e (by simpa using he)
  have hne : ∀ e ∈ es, e ≠ "" := fun e he =>
    goodStack_ne_empty r _ h e (by simpa using he)
  have hrep : cleanStack r [] es = es.reverse := by
    have := cleanStack_replay r es [] (by simpa using h)
    simpa using this
  cases r with
  | true =>
    by_cases hes : es = []
    · subst hes; decide
    · simp only [Key.render, if_true, namei, isRooted, Separator, decide_True]
      simp only [splitSep, Separator, if_true]
      have := splitSep_joinSep es hes hsf
      simp only [Separator] at this
      rw [this]
      show Key.mk true (cleanStack true (cleanStep true [] "") es).reverse = _
      simp [cleanStep, hrep]
  | false =>
    by_cases hes : es = []
    · subst hes; decide
    · obtain ⟨c, cs, hj, hc⟩ := joinSep_head_not_sep es hes hne hsf
      have hsp := splitSep_joinSep es hes hsf
      have hrender : (Key.mk false es).render = String.mk (joinSep es) := by
        simp [Key.render, hes]
      rw [hrender]
      have hroot : isRooted (String.mk (joinSep es)) = false := by
        simp [isRooted, hj, hc]
      simp only [namei, hroot, hsp, hrep, List.reverse_reverse]

theorem render_ne_empty (k : Key) (h : goodStack k.rooted k.elems.reverse) :
    k.render ≠ "" := by
  obtain ⟨r, es⟩ := k
  simp only at h
  cases r with
  | true => simp [Key.render]; intro hh; have := congrArg String.data hh; simp at this
  | false =>
    by_cases hes : es = []
    · subst hes; decide
    · obtain ⟨c, cs, hj, _⟩ := joinSep_head_not_sep es hes
        (fun e he => goodStack_ne_empty false _ h e (by simpa using he))
        (fun e he => goodStack_sepFree false _ h e (by simpa using he))
      simp only [Key.render, hes, if_false]
      intro hh
      have := congrArg String.data hh
      simp [hj] at this

theorem Clean_ne_empty (path : String) : Clean path ≠ "" := by
  unfold Clean
  split
  · decide
  · exact render_ne_empty _ (namei_good path)

theorem namei_Clean (path : String) (h : path ≠ "") : namei (Clean path) = namei path := by
  simp only [Clean, h, if_false]
  exact namei_render _ (namei_good path)

theorem Clean_eq_render (path : String) (h : path ≠ "") : Clean path = (namei path).render := by
  simp [Clean, h]

theorem isRooted_append (y x : String) (h : y ≠ "") : isRooted (y ++ x) = isRooted y := by
  cases hd : y.data with
  | nil => exact absurd (String.ext hd) h
  | cons c cs => simp [isRooted, String.data_append, hd]

/-- Resolution goes on from the directory reached so far. -/
theorem namei_append_sep (y x : String) (h : y ≠ "") :
    namei (y ++ "/" ++ x) =
      ⟨isRooted y, (cleanStack (isRooted y) (namei y).elems.reverse (splitSep x.data)).reverse⟩ := by
  have hr : isRooted (y ++ "/" ++ x) = isRooted y := by
    rw [String.append_assoc, isRooted_append y _ h]
  have hd : (y ++ "/" ++ x).data = y.data ++ Separator :: x.data := by
    simp [String.data_append, Separator]
  simp only [namei, hr, hd, splitSep_append_sep, cleanStack_append, List.reverse_reverse]

/-- Cleaning a directory first does not change what a path below it names. -/
theorem namei_Clean_append (y x : String) (h : y ≠ "") :
    namei (Clean y ++ "/" ++ x) = namei (y ++ "/" ++ x) := by
  rw [namei_append_sep _ _ (Clean_ne_empty y), namei_append_sep _ _ h, namei_Clean y h]
  have : isRooted (Clean y) = isRooted y := by
    have := congrArg Key.rooted (namei_Clean y h)
    simpa [namei] using this
  rw [this]

theorem append_ne_empty_left (a b : String) (h : a ≠ "") : a ++ b ≠ "" := by
  intro hh
  have := congrArg String.data hh
  simp [String.data_append] at this
  exact h (String.ext this.1)

/-- Joining in two steps, as `Write` does, names the file that joining in one
step, as `Read` and `Delete` do, names. -/
theorem Join_Join (root c x : String) (hc : c ≠ "") :
    Join [Join [root, c], x] = Join [root, c, x] := by
  by_cases hroot : root = ""
  · subst hroot
    have h1 : Join ["", c] = Clean c := by simp [Join, hc, joinStrings]
    have h2 : Join ["", c, x] = Clean (c ++ "/" ++ x) := by simp [Join, hc, joinStrings]
    rw [h1, h2]
    have h3 : Join [Clean c, x] = Clean (Clean c ++ "/" ++ x) := by
      simp [Join, Clean_ne_empty, joinStrings]
    rw [h3, Clean_eq_render _ (append_ne_empty_left _ _ (append_ne_empty_left _ _ (Clean_ne_empty c))),
      Clean_eq_render _ (append_ne_empty_left _ _ (append_ne_empty_left _ _ hc)),
      namei_Clean_append c x hc]
  · have h1 : Join [root, c] = Clean (root ++ "/" ++ c) := by simp [Join, hroot, joinStrings]
    have h2 : Join [root, c, x] = Clean (root ++ "/" ++ c ++ "/" ++ x) := by
      simp [Join, hroot, joinStrings, String.append_assoc]
    have hy : root ++ "/" ++ c ≠ "" := append_ne_empty_left _ _ (append_ne_empty_left _ _ hroot)
    rw [h1, h2]
    have h3 : Join [Clean (root ++ "/" ++ c), x] = Clean (Clean (root ++ "/" ++ c) ++ "/" ++ x) := by
      simp [Join, Clean_ne_empty, joinStrings]
    rw [h3, Clean_eq_render _ (append_ne_empty_left _ _ (append_ne_empty_left _ _ (Clean_ne_empty _))),
      Clean_eq_render _ (append_ne_empty_left _ _ (append_ne_empty_left _ _ hy)),
      namei_Clean_append _ x hy]

/-! ## The file system: what the system calls change -/

theorem lookup_erase (fs : FS) (k k' : Key) :
    lookup (erase fs k) k' = if k' = k then none else lookup fs k' := by
  induction fs with
  | nil => simp [erase, lookup]
  | cons e rest ih =>
    obtain ⟨k0, n0⟩ := e
    by_cases h0 : k0 = k
    · subst h0
      by_cases h1 : k' = k0
      · subst h1; simp [erase, lookup, ih]
      · have h2 : ¬ k0 = k' := fun h => h1 h.symm
        simp [erase, lookup, ih, h1, h2]
    · by_cases h1 : k' = k
      · subst h1; simp [erase, lookup, ih, h0]
      · by_cases h2 : k0 = k'
        · simp [erase, lookup, h0, h2, h1]
        · simp [erase, lookup, ih, h0, h1, h2]

theorem lookup_set (fs : FS) (k : Key) (n : Node) (k' : Key) :
    lookup (set fs k n) k' = if k' = k then some n else lookup fs k' := by
  by_cases h : k' = k
  · subst h; simp [set, lookup]
  · have h2 : ¬ k = k' := fun hh => h hh.symm
    simp [set, lookup, h, h2, lookup_erase]

theorem node_set_self (fs : FS) (k : Key) (n : Node) (h : k.implicit = false)
    (hl : k.legal = true) : node (set fs k n) k = some n := by
  simp [node, h, hl, lookup_set]

theorem node_set_other (fs : FS) (k : Key) (n : Node) (k' : Key) (h : k' ≠ k) :
    node (set fs k n) k' = node fs k' := by
  simp [node, lookup_set, h]

theorem node_erase_self (fs : FS) (k : Key) (h : k.implicit = false) :
    node (erase fs k) k = none := by
  simp [node, h, lookup_erase]

theorem node_erase_other (fs : FS) (k k' : Key) (h : k' ≠ k) :
    node (erase fs k) k' = node fs k' := by
  simp [node, lookup_erase, h]

theorem not_implicit_of_node_ne_dir (fs : FS) (k : Key) (h : node fs k ≠ some Node.dir) :
    k.implicit = false := by
  cases hi : k.implicit with
  | false => rfl
  | true => simp [node, hi] at h

/-- A regular file exists under a legal name only. -/
theorem legal_of_file (fs : FS) (k : Key) (data : String)
    (h : node fs k = some (Node.file data)) : k.implicit = false ∧ k.legal = true := by
  have hi := not_implicit_of_node_ne_dir fs k (by rw [h]; simp)
  refine ⟨hi, ?_⟩
  cases hl : k.legal with
  | true => rfl
  | false => simp [node, hi, hl] at h

/-- What a legal name is, in three parts. -/
theorem legal_iff (k : Key) :
    k.legal = true ↔ hasNul k.render = false ∧ k.render.utf8ByteSize ≤ pathMax ∧
      ∀ e ∈ k.elems, e.utf8ByteSize ≤ nameMax := by
  simp [Key.legal, and_assoc]

theorem walkDirs_none_iff (fs : FS) (l : List Key) :
    walkDirs fs l = none ↔ ∀ a ∈ l, node fs a = some Node.dir := by
  induction l with
  | nil => simp [walkDirs]
  | cons a rest ih =>
    unfold walkDirs
    cases ha : node fs a with
    | none => simp [ha]
    | some n =>
      cases n with
      | file data => simp [ha]
      | dir => simp [ha, ih]

theorem resolve_ok_iff (fs : FS) (name : String) (k : Key) :
    resolve fs name = Except.ok k ↔
      name ≠ "" ∧ k = namei name ∧ walkDirs fs (ancestors (namei name)) = none := by
  unfold resolve
  by_cases h : name = ""
  · simp [h]
  · cases hw : walkDirs fs (ancestors (namei name)) with
    | none => simp [h, eq_comm]
    | some e => simp [h]

theorem stems_length (es : List String) : ∀ s ∈ stems es, s.length < es.length := by
  induction es with
  | nil => intro s hs; cases hs
  | cons e es ih =>
    intro s hs
    simp only [stems, List.mem_cons, List.mem_map] at hs
    rcases hs with h | ⟨t, ht, h⟩
    · subst h; simp
    · subst h
      have := ih t ht
      simp only [List.length_cons]
      omega

/-- A path is not one of the directories it goes through. -/
theorem not_mem_ancestors_self (k : Key) : k ∉ ancestors k := by
  intro h
  simp only [ancestors, List.mem_map] at h
  obtain ⟨s, hs, hk⟩ := h
  have := stems_length _ s hs
  rw [← hk] at this
  simp at this

theorem stems_snoc (es : List String) (e : String) : stems (es ++ [e]) = stems es ++ [es] := by
  induction es with
  | nil => simp [stems]
  | cons x es ih => simp [stems, ih]

theorem ancestors_snoc (r : Bool) (es : List String) (e : String) :
    ancestors ⟨r, es ++ [e]⟩ = ancestors ⟨r, es⟩ ++ [⟨r, es⟩] := by
  simp [ancestors, stems_snoc]

/-- Creating directories keeps every node and only adds directories where
nothing was. -/
theorem mkdirs_node (ks : List Key) :
    ∀ (b : Option Nat) (fs : FS) (k' : Key),
      node (os.mkdirs ks b fs).2 k' = node fs k' ∨
        (node fs k' = none ∧ node (os.mkdirs ks b fs).2 k' = some Node.dir) := by
  induction ks with
  | nil => intro b fs k'; simp [os.mkdirs]
  | cons k ks ih =>
    intro b fs k'
    have hstep : ∀ b', node fs k = none → k.legal = true →
        node (os.mkdirs ks b' (set fs k Node.dir)).2 k' = node fs k' ∨
          (node fs k' = none ∧
            node (os.mkdirs ks b' (set fs k Node.dir)).2 k' = some Node.dir) := by
      intro b' hk hl
      have hi : k.implicit = false := not_implicit_of_node_ne_dir fs k (by simp [hk])
      by_cases hkk : k' = k
      · subst hkk
        right
        refine ⟨hk, ?_⟩
        rcases ih b' (set fs k' Node.dir) k' with h | h
        · rw [h, node_set_self _ _ _ hi hl]
        · exact h.2
      · rcases ih b' (set fs k Node.dir) k' with h | h
        · left; rw [h, node_set_other _ _ _ _ hkk]
        · right; rw [node_set_other _ _ _ _ hkk] at h; exact h
    unfold os.mkdirs
    cases hk : node fs k with
    | none =>
      simp only
      cases hl : k.legal with
      | false => left; simp
      | true =>
        cases hb : os.spend b with
        | none => left; simp
        | some left => simpa using hstep left hk hl
    | some n =>
      cases n with
      | file data => simp
      | dir => simpa using ih b fs k'

theorem mkdirs_keeps (ks : List Key) (b : Option Nat) (fs : FS) (k' : Key)
    (n : Node) (h : node fs k' = some n) : node (os.mkdirs ks b fs).2 k' = some n := by
  rcases mkdirs_node ks b fs k' with h1 | h1
  · rw [h1, h]
  · rw [h] at h1; exact absurd h1.1 (by simp)

theorem mkdirs_ok (ks : List Key) :
    ∀ (b : Option Nat) (fs : FS), (os.mkdirs ks b fs).1 = none →
      ∀ k ∈ ks, node (os.mkdirs ks b fs).2 k = some Node.dir := by
  induction ks with
  | nil => intro b fs _ k hk; cases hk
  | cons k0 ks ih =>
    intro b fs hok k hk
    unfold os.mkdirs at hok ⊢
    cases h0 : node fs k0 with
    | none =>
      have hi : k0.implicit = false := not_implicit_of_node_ne_dir fs k0 (by simp [h0])
      simp only [h0] at hok ⊢
      cases hl : k0.legal with
      | false => simp [hl] at hok
      | true =>
        simp only [hl, if_true] at hok ⊢
        cases hb : os.spend b with
        | none => simp [hb] at hok
        | some left =>
          simp only [hb] at hok ⊢
          rcases List.mem_cons.1 hk with h | h
          · subst h
            exact mkdirs_keeps ks left _ _ _ (node_set_self fs _ _ hi hl)
          · exact ih left _ hok k h
    | some n =>
      cases n with
      | file data => simp [h0] at hok
      | dir =>
        simp only [h0] at hok ⊢
        rcases List.mem_cons.1 hk with h | h
        · subst h
          exact mkdirs_keeps ks b _ _ _ h0
        · exact ih b fs hok k h

/-- The second component of `os.MkdirAll` is what `mkdirs` leaves. -/
theorem MkdirAll_fs (fault : Option Nat) (fs : FS) (path : String) :
    (os.MkdirAll fault fs path).2 = fs ∨
      (os.MkdirAll fault fs path).2 =
        (os.mkdirs (ancestors (namei path) ++ [namei path]) fault fs).2 := by
  unfold os.MkdirAll
  split
  · left; rfl
  · right
    split <;> simp_all

theorem MkdirAll_node (fault : Option Nat) (fs : FS) (path : String) (k' : Key) :
    node (os.MkdirAll fault fs path).2 k' = node fs k' ∨
      (node fs k' = none ∧ node (os.MkdirAll fault fs path).2 k' = some Node.dir) := by
  rcases MkdirAll_fs fault fs path with h | h
  · left; rw [h]
  · rw [h]; exact mkdirs_node _ _ _ _

theorem WriteFile_fs (fault : Option (Option Nat)) (fs : FS) (name data : String) :
    (os.WriteFile fault fs name data).2 = fs ∨
      (node fs (namei name) ≠ some Node.dir ∧
        ∃ content, (os.WriteFile fault fs name data).2 =
          set fs (namei name) (Node.file content)) := by
  unfold os.WriteFile
  split
  · left; rfl
  · split
    · left; rfl
    · rename_i k hres
      have hk : k = namei name := ((resolve_ok_iff fs name k).1 hres).2.1
      subst hk
      split
      · left; rfl
      · rename_i hnd
        split
        · right
          refine ⟨by simpa using hnd, ?_⟩
          split
          · exact ⟨_, rfl⟩
          · exact ⟨_, rfl⟩
        · left; rfl

/-- A write that succeeds leaves the data in a regular file at the path. -/
theorem WriteFile_ok (fault : Option (Option Nat)) (fs : FS) (name data : String)
    (h : (os.WriteFile fault fs name data).1 = none) :
    resolve fs name = Except.ok (namei name) ∧ node fs (namei name) ≠ some Node.dir ∧
      (os.WriteFile fault fs name data).2 = set fs (namei name) (Node.file data) ∧
      node (os.WriteFile fault fs name data).2 (namei name) = some (Node.file data) := by
  unfold os.WriteFile at h ⊢
  split at h
  · simp at h
  · split at h
    · simp at h
    · rename_i k hres
      have hk : k = namei name := ((resolve_ok_iff fs name k).1 hres).2.1
      subst hk
      split at h
      · simp at h
      · rename_i hnd
        have hnd' : node fs (namei name) ≠ some Node.dir := by simpa using hnd
        split at h
        · rename_i hl
          split at h
          · simp at h
          · rename_i hf
            refine ⟨hres, hnd', ?_, ?_⟩
            · simp [hl]
            · simp only [hl, if_true]
              exact node_set_self _ _ _ (not_implicit_of_node_ne_dir fs _ hnd') hl
        · simp at h

/-- Renaming a regular file: the call fails and changes nothing, or the file is
at the new path afterwards. -/
theorem Rename_file (fault : Bool) (fs : FS) (old new data : String)
    (hsrc : node fs (namei old) = some (Node.file data)) :
    ((os.Rename fault fs old new).1 ≠ none ∧ (os.Rename fault fs old new).2 = fs) ∨
      ((os.Rename fault fs old new).1 = none ∧ resolve fs new = Except.ok (namei new) ∧
        ((namei old = namei new ∧ (os.Rename fault fs old new).2 = fs) ∨
          (namei old ≠ namei new ∧ node fs (namei new) ≠ some Node.dir ∧
            (namei new).legal = true ∧
            (os.Rename fault fs old new).2 =
              set (erase fs (namei old)) (namei new) (Node.file data)))) := by
  unfold os.Rename
  split
  · left; simp
  · split
    · left; simp
    · left; simp
    · rename_i ko kn hro hrn
      have hko : ko = namei old := ((resolve_ok_iff fs old ko).1 hro).2.1
      have hkn : kn = namei new := ((resolve_ok_iff fs new kn).1 hrn).2.1
      subst hko
      subst hkn
      simp only [hsrc]
      split
      · rename_i heq
        right
        exact ⟨rfl, hrn, Or.inl ⟨heq, rfl⟩⟩
      · rename_i hne
        split
        · left; simp
        · rename_i hnd
          split
          · rename_i hl
            right
            exact ⟨rfl, hrn, Or.inr ⟨hne, by simpa using hnd, hl, rfl⟩⟩
          · left; simp

/-- What a `Write` that returns nil leaves: the serialization of the value and a
newline in the file at the final path, below directories that exist. -/
theorem Write_ok_state {V : Type} (env : Faults) (J : Codec V) (d : Driver) (fs : FS)
    (c r : String) (v : V) (hc : c ≠ "") (hr : r ≠ "")
    (hret : (d.Write env J fs c r v).ret = none) :
    ∃ b, J.MarshalIndent v = Except.ok b ∧
      node (d.Write env J fs c r v).fs (namei (Join [Join [d.dir, c], r ++ ".json"])) =
        some (Node.file (b ++ "\n")) ∧
      walkDirs (d.Write env J fs c r v).fs
        (ancestors (namei (Join [Join [d.dir, c], r ++ ".json"]))) = none ∧
      Join [Join [d.dir, c], r ++ ".json"] ≠ "" := by
  simp only [Driver.Write, hc, hr, if_false] at hret ⊢
  rcases hg : d.getOrCreateMutex c with ⟨mutex, d1, steps⟩
  rcases hmk : os.MkdirAll env.mkdir fs (Join [d.dir, c]) with ⟨e1, fs1⟩
  simp only [hg, hmk] at hret ⊢
  cases e1 with
  | some err => simp at hret
  | none =>
    simp only at hret ⊢
    cases hm : J.MarshalIndent v with
    | error err => simp [hm] at hret
    | ok b =>
      simp only [hm] at hret ⊢
      rcases hw : os.WriteFile env.write fs1 (Join [Join [d.dir, c], r ++ ".json"] ++ ".tmp")
        (b ++ "\n") with ⟨e2, fs2⟩
      simp only [hw] at hret ⊢
      cases e2 with
      | some err => simp at hret
      | none =>
        simp only at hret ⊢
        obtain ⟨hres, hnd, _, hsrc⟩ := WriteFile_ok env.write fs1 _ _ (by rw [hw])
        rw [hw] at hsrc
        simp only at hsrc
        refine ⟨b, rfl, ?_⟩
        rcases Rename_file env.rename fs2 _ (Join [Join [d.dir, c], r ++ ".json"]) _ hsrc with
          ⟨hbad, _⟩ | ⟨_, hrn, hcase⟩
        · exact absurd hret hbad
        · obtain ⟨hne, _, hwalk⟩ := (resolve_ok_iff _ _ _).1 hrn
          rw [walkDirs_none_iff] at hwalk
          rcases hcase with ⟨heq, hfs3⟩ | ⟨hneq, hnd2, hlegal, hfs3⟩
          · rw [hfs3]
            refine ⟨by rw [← heq]; exact hsrc, ?_, hne⟩
            rw [walkDirs_none_iff]; exact hwalk
          · rw [hfs3]
            have hfi := not_implicit_of_node_ne_dir fs2 _ hnd2
            refine ⟨node_set_self _ _ _ hfi hlegal, ?_, hne⟩
            rw [walkDirs_none_iff]
            intro a ha
            have h1 : a ≠ namei (Join [Join [d.dir, c], r ++ ".json"]) := by
              intro hh; rw [hh] at ha; exact not_mem_ancestors_self _ ha
            have h2 : a ≠ namei (Join [Join [d.dir, c], r ++ ".json"] ++ ".tmp") := by
              intro hh
              have := hwalk a ha
              rw [hh, hsrc] at this
              simp at this
            rw [node_set_other _ _ _ _ h1, node_erase_other _ _ _ h2]
            exact hwalk a ha

/-! ## The driver: lemmas -/

theorem getOrCreateMutex_dir (d : Driver) (c : String) :
    (d.getOrCreateMutex c).2.1.dir = d.dir := by
  unfold Driver.getOrCreateMutex
  split <;> rfl

theorem Write_dir {V : Type} (env : Faults) (J : Codec V) (d : Driver) (fs : FS)
    (c r : String) (v : V) : (d.Write env J fs c r v).d.dir = d.dir := by
  have hg := getOrCreateMutex_dir d c
  unfold Driver.Write
  split
  · rfl
  · split
    · rfl
    · rcases hgm : d.getOrCreateMutex c with ⟨mutex, d1, steps⟩
      rw [hgm] at hg
      simp only
      split
      · exact hg
      · split
        · exact hg
        · split
          · exact hg
          · exact hg

theorem Delete_dir (env : Faults) (d : Driver) (fs : FS) (c r : String) :
    (d.Delete env fs c r).d.dir = d.dir := by
  have hg := getOrCreateMutex_dir d c
  unfold Driver.Delete
  split
  · rfl
  · split
    · rfl
    · rcases hgm : d.getOrCreateMutex c with ⟨mutex, d1, steps⟩
      rw [hgm] at hg
      simp only
      split
      · exact hg
      · exact hg

theorem Join3_ne_empty (root c x : String) (hc : c ≠ "") : Join [root, c, x] ≠ "" := by
  by_cases hroot : root = ""
  · simp [Join, hroot, hc, Clean_ne_empty]
  · simp [Join, hroot, Clean_ne_empty]

/-- A cleaned path is the text of what it resolves to. -/
theorem Clean_clean (y : String) (hy : y ≠ "") : Clean y = (namei (Clean y)).render := by
  rw [namei_Clean y hy]
  exact Clean_eq_render y hy

/-- The path of a resource is the text of what it resolves to. -/
theorem Join3_clean (root c x : String) (hc : c ≠ "") :
    Join [root, c, x] = (namei (Join [root, c, x])).render := by
  by_cases hroot : root = ""
  · have h : Join [root, c, x] = Clean (c ++ "/" ++ x) := by
      simp [Join, hroot, hc, joinStrings]
    rw [h]
    exact Clean_clean _ (append_ne_empty_left _ _ (append_ne_empty_left _ _ hc))
  · have h : Join [root, c, x] = Clean (root ++ "/" ++ (c ++ "/" ++ x)) := by
      simp [Join, hroot, joinStrings]
    rw [h]
    exact Clean_clean _ (append_ne_empty_left _ _ (append_ne_empty_left _ _ hroot))

/-- `Read` without an environment fault, on a path that names a regular file
below existing directories: the content is handed to `Unmarshal`. -/
theorem Read_of_file {V : Type} (J : Codec V) (d : Driver) (fs : FS) (c r data : String)
    (hc : c ≠ "") (hr : r ≠ "")
    (hnode : node fs (namei (Join [d.dir, c, r ++ ".json"])) = some (Node.file data))
    (hwalk : walkDirs fs (ancestors (namei (Join [d.dir, c, r ++ ".json"]))) = none) :
    (d.Read Faults.none J fs c r).ret = J.Unmarshal data := by
  have hne := Join3_ne_empty d.dir c (r ++ ".json") hc
  have hres : resolve fs (Join [d.dir, c, r ++ ".json"]) =
      Except.ok (namei (Join [d.dir, c, r ++ ".json"])) :=
    (resolve_ok_iff _ _ _).2 ⟨hne, rfl, hwalk⟩
  have hstat : os.Stat false fs (Join [d.dir, c, r ++ ".json"]) =
      Except.ok (Node.file data) := by
    simp [os.Stat, hres, hnode]
  have hread : os.ReadFile false fs (Join [d.dir, c, r ++ ".json"]) = Except.ok data := by
    simp [os.ReadFile, hres, hnode]
  rcases hg : d.getOrCreateMutex c with ⟨mutex, d1, steps⟩
  simp [Driver.Read, hc, hr, hg, Faults.none, hstat, hread, statNotExist]

theorem stems_subset (es : List String) : ∀ s ∈ stems es, ∀ e ∈ s, e ∈ es := by
  induction es with
  | nil => intro s hs; cases hs
  | cons x es ih =>
    intro s hs e he
    simp only [stems, List.mem_cons, List.mem_map] at hs
    rcases hs with h | ⟨t, ht, h⟩
    · subst h; cases he
    · subst h
      rcases List.mem_cons.1 he with h | h
      · subst h; simp
      · exact List.mem_cons_of_mem _ (ih t ht e h)

/-- A lookup that finds nothing at a key whose last element is not too long
fails with `ENOENT`. -/
theorem missingErrno_short (k : Key) (h : ∀ e ∈ k.elems, e.utf8ByteSize ≤ nameMax) :
    missingErrno k = Errno.ENOENT := by
  unfold missingErrno
  split
  · rename_i e he
    have := h e (List.mem_of_getLast?_eq_some he)
    simp [Nat.not_lt.2 this]
  · rfl

/-- What `os.Stat` answers, without an environment fault, for a legal name at
which nothing exists and which goes through no regular file. -/
theorem Stat_absent (fs : FS) (name : String)
    (hnul : hasNul name = false) (hlen : name.utf8ByteSize ≤ pathMax)
    (helems : ∀ e ∈ (namei name).elems, e.utf8ByteSize ≤ nameMax)
    (habsent : node fs (namei name) = none)
    (hnofile : ∀ a ∈ ancestors (namei name), isFile (node fs a) = false) :
    statNotExist (os.Stat false fs name) = true := by
  have hname : ∀ e, nameErrno name e = e := by
    intro e; simp [nameErrno, hnul, Nat.not_lt.2 hlen]
  have hwalk : ∀ l : List Key, (∀ a ∈ l, isFile (node fs a) = false) →
      (∀ a ∈ l, ∀ e ∈ a.elems, e.utf8ByteSize ≤ nameMax) →
      walkDirs fs l = none ∨ walkDirs fs l = some Errno.ENOENT := by
    intro l
    induction l with
    | nil => intro _ _; left; rfl
    | cons a rest ih =>
      intro h hs
      unfold walkDirs
      cases ha : node fs a with
      | none => right; simp [missingErrno_short a (hs a (by simp))]
      | some n =>
        cases n with
        | file data =>
          have := h a (by simp)
          rw [ha] at this
          simp [isFile] at this
        | dir =>
          exact ih (fun x hx => h x (List.mem_cons_of_mem _ hx))
            (fun x hx => hs x (List.mem_cons_of_mem _ hx))
  have hanc : ∀ a ∈ ancestors (namei name), ∀ e ∈ a.elems, e.utf8ByteSize ≤ nameMax := by
    intro a ha e he
    simp only [ancestors, List.mem_map] at ha
    obtain ⟨s, hs, hk⟩ := ha
    subst hk
    exact helems e (stems_subset _ s hs e he)
  unfold os.Stat resolve
  by_cases hn : name = ""
  · simp [hn, statNotExist, os.IsNotExist, nameErrno, hasNul]
  · rcases hwalk _ hnofile hanc with h | h
    · simp [hn, h, habsent, statNotExist, os.IsNotExist, hname, missingErrno_short _ helems]
    · simp [hn, h, statNotExist, os.IsNotExist, hname]

/-- Claim C1 (round trip): when the names are not empty and `Unmarshal` inverts
the serializer on `v`, a `Write` that returns nil is followed by a `Read` that
returns nil and hands back `v`.  The `Write` runs in any environment; the
`Read` in one where a system call fails only for a reason visible in the file
system. -/
theorem C1_round_trip {V : Type} (env : Faults) (J : Codec V) (d : Driver) (fs : FS)
    (c r : String) (v : V) (hc : c ≠ "") (hr : r ≠ "")
    (hinv : ∀ b, J.MarshalIndent v = Except.ok b → J.Unmarshal (b ++ "\n") = Except.ok v)
    (hw : (d.Write env J fs c r v).ret = none) :
    ((d.Write env J fs c r v).d.Read Faults.none J (d.Write env J fs c r v).fs c r).ret =
      Except.ok v := by
  obtain ⟨b, hb, hnode, hwalk, _⟩ := Write_ok_state env J d fs c r v hc hr hw
  rw [Join_Join _ _ _ hc] at hnode hwalk
  have hdir := Write_dir env J d fs c r v
  rw [Read_of_file J _ _ c r (b ++ "\n") hc hr (by rw [hdir]; exact hnode)
    (by rw [hdir]; exact hwalk)]
  exact hinv b hb

/-- A run of C1: a boolean written to `db/users/john.json` and read back. -/
theorem C1_round_trip_witness :
    ((Driver.Write Faults.none boolCodec ⟨[], "db"⟩ [(⟨false, ["db"]⟩, Node.dir)]
        "users" "john" true).d.Read Faults.none boolCodec
      (Driver.Write Faults.none boolCodec ⟨[], "db"⟩ [(⟨false, ["db"]⟩, Node.dir)]
        "users" "john" true).fs "users" "john").ret = Except.ok true :=
  C1_round_trip Faults.none boolCodec ⟨[], "db"⟩ [(⟨false, ["db"]⟩, Node.dir)]
    "users" "john" true (by decide) (by decide)
    (by intro b hb; simp [boolCodec] at hb; subst hb; decide) (by decide)

/-- Claim C3 (empty-name rejection): when the collection name or the resource
name is empty, `Write`, `Read` and `Delete` return an error, whatever the store
state, the value and the environment; the file system and the driver, with its
map of locks, are as before, and the operation has taken no step (no lock, no
map access, no system call). -/
theorem C3_empty_name {V : Type} (env : Faults) (J : Codec V) (d : Driver) (fs : FS)
    (c r : String) (v : V) (h : c = "" ∨ r = "") :
    ((∃ e, (d.Write env J fs c r v).ret = some e) ∧ (d.Write env J fs c r v).fs = fs ∧
        (d.Write env J fs c r v).d = d ∧ (d.Write env J fs c r v).log = []) ∧
      ((∃ e, (d.Read env J fs c r).ret = Except.error e) ∧ (d.Read env J fs c r).fs = fs ∧
        (d.Read env J fs c r).d = d ∧ (d.Read env J fs c r).log = []) ∧
      ((∃ e, (d.Delete env fs c r).ret = some e) ∧ (d.Delete env fs c r).fs = fs ∧
        (d.Delete env fs c r).d = d ∧ (d.Delete env fs c r).log = []) := by
  by_cases hc : c = ""
  · subst hc
    simp [Driver.Write, Driver.Read, Driver.Delete]
  · have hr : r = "" := h.resolve_left hc
    subst hr
    simp [Driver.Write, Driver.Read, Driver.Delete, hc]

/-- A run of C3: an empty resource name, on a store that holds a document. -/
theorem C3_empty_name_witness :
    ((∃ e, (Driver.Write Faults.none boolCodec ⟨[("users", 1)], "db"⟩
          [(⟨false, ["db"]⟩, Node.dir)] "users" "" true).ret = some e) ∧
        (Driver.Write Faults.none boolCodec ⟨[("users", 1)], "db"⟩
          [(⟨false, ["db"]⟩, Node.dir)] "users" "" true).fs = [(⟨false, ["db"]⟩, Node.dir)] ∧
        (Driver.Write Faults.none boolCodec ⟨[("users", 1)], "db"⟩
          [(⟨false, ["db"]⟩, Node.dir)] "users" "" true).d = ⟨[("users", 1)], "db"⟩ ∧
        (Driver.Write Faults.none boolCodec ⟨[("users", 1)], "db"⟩
          [(⟨false, ["db"]⟩, Node.dir)] "users" "" true).log = []) ∧
      ((∃ e, (Driver.Read Faults.none boolCodec ⟨[("users", 1)], "db"⟩
          [(⟨false, ["db"]⟩, Node.dir)] "users" "").ret = Except.error e) ∧
        (Driver.Read Faults.none boolCodec ⟨[("users", 1)], "db"⟩
          [(⟨false, ["db"]⟩, Node.dir)] "users" "").fs = [(⟨false, ["db"]⟩, Node.dir)] ∧
        (Driver.Read Faults.none boolCodec ⟨[("users", 1)], "db"⟩
          [(⟨false, ["db"]⟩, Node.dir)] "users" "").d = ⟨[("users", 1)], "db"⟩ ∧
        (Driver.Read Faults.none boolCodec ⟨[("users", 1)], "db"⟩
          [(⟨false, ["db"]⟩, Node.dir)] "users" "").log = []) ∧
      ((∃ e, (Driver.Delete Faults.none ⟨[("users", 1)], "db"⟩
          [(⟨false, ["db"]⟩, Node.dir)] "users" "").ret = some e) ∧
        (Driver.Delete Faults.none ⟨[("users", 1)], "db"⟩
          [(⟨false, ["db"]⟩, Node.dir)] "users" "").fs = [(⟨false, ["db"]⟩, Node.dir)] ∧
        (Driver.Delete Faults.none ⟨[("users", 1)], "db"⟩
          [(⟨false, ["db"]⟩, Node.dir)] "users" "").d = ⟨[("users", 1)], "db"⟩ ∧
        (Driver.Delete Faults.none ⟨[("users", 1)], "db"⟩
          [(⟨false, ["db"]⟩, Node.dir)] "users" "").log = []) :=
  C3_empty_name Faults.none boolCodec ⟨[("users", 1)], "db"⟩ [(⟨false, ["db"]⟩, Node.dir)]
    "users" "" true (Or.inr rfl)

/-- `Read` never changes the file system. -/
theorem Read_fs {V : Type} (env : Faults) (J : Codec V) (d : Driver) (fs : FS)
    (c r : String) : (d.Read env J fs c r).fs = fs := by
  unfold Driver.Read
  split
  · rfl
  · split
    · rfl
    · rcases hgm : d.getOrCreateMutex c with ⟨mutex, d1, steps⟩
      simp only
      split
      · rfl
      · split <;> rfl

/-- What `Read` and `Delete` do when `os.Stat` reports that the path does not
exist. -/
theorem Read_Delete_notExist {V : Type} (env : Faults) (J : Codec V) (d : Driver) (fs : FS)
    (c r : String) (hc : c ≠ "") (hr : r ≠ "")
    (hst : statNotExist (os.Stat env.stat fs (Join [d.dir, c, r ++ ".json"])) = true) :
    (d.Read env J fs c r).ret = Except.error (error.New "resource not found") ∧
      (d.Delete env fs c r).ret = some (error.New "resource not found") ∧
      (d.Delete env fs c r).fs = fs := by
  rcases hg : d.getOrCreateMutex c with ⟨mutex, d1, steps⟩
  simp [Driver.Read, Driver.Delete, hc, hr, hg, hst]

/-- Claim C4 as stated fails: with the regular file `db/a`, nothing exists at
`db/a/b.json`, yet `os.Stat` answers `ENOTDIR`, which `os.IsNotExist` does not
accept: `Read("a", "b", _)` returns the error of `os.ReadFile` and
`Delete("a", "b")` the error of `os.Remove`, not "resource not found". -/
theorem C4_counterexample :
    node fsFileOnTheWay (namei (Join ["db", "a", "b" ++ ".json"])) = none ∧
      (Driver.Read Faults.none boolCodec ⟨[], "db"⟩ fsFileOnTheWay "a" "b").ret =
        Except.error (error.PathError "open" "db/a/b.json" Errno.ENOTDIR) ∧
      (Driver.Delete Faults.none ⟨[], "db"⟩ fsFileOnTheWay "a" "b").ret =
        some (error.PathError "remove" "db/a/b.json" Errno.ENOTDIR) := by
  decide

/-- Claim C4 (missing resource), amended: when the names are not empty, the
path of the resource is a legal name (no NUL byte, at most 4095 bytes, no
element over 255 bytes), nothing exists at it, everything that exists on the
way to it is a directory, and the environment does not fail `os.Stat`, then
`Read` and `Delete` both return the error "resource not found" and leave the
file system as it was. -/
theorem C4_missing_resource {V : Type} (env : Faults) (J : Codec V) (d : Driver) (fs : FS)
    (c r : String) (hc : c ≠ "") (hr : r ≠ "") (henv : env.stat = false)
    (hlegal : (namei (Join [d.dir, c, r ++ ".json"])).legal = true)
    (habsent : node fs (namei (Join [d.dir, c, r ++ ".json"])) = none)
    (hnofile : ∀ a ∈ ancestors (namei (Join [d.dir, c, r ++ ".json"])),
      isFile (node fs a) = false) :
    ((d.Read env J fs c r).ret = Except.error (error.New "resource not found") ∧
        (d.Read env J fs c r).fs = fs) ∧
      ((d.Delete env fs c r).ret = some (error.New "resource not found") ∧
        (d.Delete env fs c r).fs = fs) := by
  have hst : statNotExist (os.Stat env.stat fs (Join [d.dir, c, r ++ ".json"])) = true := by
    rw [henv]
    obtain ⟨h1, h2, h3⟩ := (legal_iff _).1 hlegal
    rw [← Join3_clean d.dir c (r ++ ".json") hc] at h1 h2
    exact Stat_absent fs _ h1 h2 h3 habsent hnofile
  obtain ⟨h1, h2, h3⟩ := Read_Delete_notExist env J d fs c r hc hr hst
  exact ⟨⟨h1, Read_fs env J d fs c r⟩, h2, h3⟩

/-- A run of C4: `db/users/john.json` is missing from an existing collection. -/
theorem C4_missing_resource_witness :
    ((Driver.Read Faults.none boolCodec ⟨[], "db"⟩
          [(⟨false, ["db"]⟩, Node.dir), (⟨false, ["db", "users"]⟩, Node.dir)]
          "users" "john").ret = Except.error (error.New "resource not found") ∧
        (Driver.Read Faults.none boolCodec ⟨[], "db"⟩
          [(⟨false, ["db"]⟩, Node.dir), (⟨false, ["db", "users"]⟩, Node.dir)]
          "users" "john").fs =
          [(⟨false, ["db"]⟩, Node.dir), (⟨false, ["db", "users"]⟩, Node.dir)]) ∧
      ((Driver.Delete Faults.none ⟨[], "db"⟩
          [(⟨false, ["db"]⟩, Node.dir), (⟨false, ["db", "users"]⟩, Node.dir)]
          "users" "john").ret = some (error.New "resource not found") ∧
        (Driver.Delete Faults.none ⟨[], "db"⟩
          [(⟨false, ["db"]⟩, Node.dir), (⟨false, ["db", "users"]⟩, Node.dir)]
          "users" "john").fs =
          [(⟨false, ["db"]⟩, Node.dir), (⟨false, ["db", "users"]⟩, Node.dir)]) :=
  C4_missing_resource Faults.none boolCodec ⟨[], "db"⟩
    [(⟨false, ["db"]⟩, Node.dir), (⟨false, ["db", "users"]⟩, Node.dir)]
    "users" "john" (by decide) (by decide) rfl (by decide) (by decide) (by decide)

/-- `Delete` without an environment fault, on a path that names a regular file
below existing directories: the file is removed. -/
theorem Delete_of_file (d : Driver) (fs : FS) (c r data : String)
    (hc : c ≠ "") (hr : r ≠ "")
    (hnode : node fs (namei (Join [d.dir, c, r ++ ".json"])) = some (Node.file data))
    (hwalk : walkDirs fs (ancestors (namei (Join [d.dir, c, r ++ ".json"]))) = none) :
    (d.Delete Faults.none fs c r).ret = none ∧
      (d.Delete Faults.none fs c r).fs = erase fs (namei (Join [d.dir, c, r ++ ".json"])) := by
  have hne := Join3_ne_empty d.dir c (r ++ ".json") hc
  have hres : resolve fs (Join [d.dir, c, r ++ ".json"]) =
      Except.ok (namei (Join [d.dir, c, r ++ ".json"])) :=
    (resolve_ok_iff _ _ _).2 ⟨hne, rfl, hwalk⟩
  have hstat : os.Stat false fs (Join [d.dir, c, r ++ ".json"]) =
      Except.ok (Node.file data) := by
    simp [os.Stat, hres, hnode]
  have hrm : os.Remove false fs (Join [d.dir, c, r ++ ".json"]) =
      (none, erase fs (namei (Join [d.dir, c, r ++ ".json"]))) := by
    simp [os.Remove, hres, hnode]
  rcases hg : d.getOrCreateMutex c with ⟨mutex, d1, steps⟩
  simp [Driver.Delete, hc, hr, hg, Faults.none, hstat, hrm, statNotExist]

/-- Claim C8 (delete, then read): when the names are not empty and the path of
the resource names a regular file below existing directories, `Delete` returns
nil and removes that file and nothing else; a `Read` that follows returns the
error "resource not found"; and the collection directory, if it was there, is
still a directory.  Both calls run in an environment where a system call fails
only for a reason visible in the file system. -/
theorem C8_delete_then_read {V : Type} (J : Codec V) (d : Driver) (fs : FS)
    (c r data : String) (hc : c ≠ "") (hr : r ≠ "")
    (hfile : node fs (namei (Join [d.dir, c, r ++ ".json"])) = some (Node.file data))
    (hdirs : ∀ a ∈ ancestors (namei (Join [d.dir, c, r ++ ".json"])),
      node fs a = some Node.dir) :
    (d.Delete Faults.none fs c r).ret = none ∧
      node (d.Delete Faults.none fs c r).fs (namei (Join [d.dir, c, r ++ ".json"])) = none ∧
      (∀ k, k ≠ namei (Join [d.dir, c, r ++ ".json"]) →
        node (d.Delete Faults.none fs c r).fs k = node fs k) ∧
      ((d.Delete Faults.none fs c r).d.Read Faults.none J
        (d.Delete Faults.none fs c r).fs c r).ret =
          Except.error (error.New "resource not found") ∧
      (node fs (namei (Join [d.dir, c])) = some Node.dir →
        node (d.Delete Faults.none fs c r).fs (namei (Join [d.dir, c])) = some Node.dir) := by
  have hwalk := (walkDirs_none_iff fs _).2 hdirs
  obtain ⟨hret, hfs⟩ := Delete_of_file d fs c r data hc hr hfile hwalk
  have hni : (namei (Join [d.dir, c, r ++ ".json"])).implicit = false :=
    (legal_of_file fs _ data hfile).1
  have hgone : node (d.Delete Faults.none fs c r).fs
      (namei (Join [d.dir, c, r ++ ".json"])) = none := by
    rw [hfs]; exact node_erase_self fs _ hni
  have hframe : ∀ k, k ≠ namei (Join [d.dir, c, r ++ ".json"]) →
      node (d.Delete Faults.none fs c r).fs k = node fs k := by
    intro k hk; rw [hfs]; exact node_erase_other fs _ _ hk
  refine ⟨hret, hgone, hframe, ?_, ?_⟩
  · have hdir := Delete_dir Faults.none d fs c r
    have hst : statNotExist (os.Stat Faults.none.stat (d.Delete Faults.none fs c r).fs
        (Join [(d.Delete Faults.none fs c r).d.dir, c, r ++ ".json"])) = true := by
      rw [hdir]
      obtain ⟨h1, h2, h3⟩ := (legal_iff _).1 (legal_of_file fs _ data hfile).2
      rw [← Join3_clean d.dir c (r ++ ".json") hc] at h1 h2
      apply Stat_absent _ _ h1 h2 h3 hgone
      intro a ha
      have hne : a ≠ namei (Join [d.dir, c, r ++ ".json"]) := by
        intro hh; rw [hh] at ha; exact not_mem_ancestors_self _ ha
      rw [hframe a hne, hdirs a ha]
      rfl
    exact (Read_Delete_notExist Faults.none J _ _ c r hc hr hst).1
  · intro hd
    have hne : namei (Join [d.dir, c]) ≠ namei (Join [d.dir, c, r ++ ".json"]) := by
      intro hh; rw [hh, hfile] at hd; simp at hd
    rw [hframe _ hne, hd]

/-- A run of C8: `db/users/john.json` deleted, then read. -/
theorem C8_delete_then_read_witness :
    (Driver.Delete Faults.none ⟨[], "db"⟩
        [(⟨false, ["db"]⟩, Node.dir), (⟨false, ["db", "users"]⟩, Node.dir),
          (⟨false, ["db", "users", "john.json"]⟩, Node.file "true\n")] "users" "john").ret = none ∧
      ((Driver.Delete Faults.none ⟨[], "db"⟩
        [(⟨false, ["db"]⟩, Node.dir), (⟨false, ["db", "users"]⟩, Node.dir),
          (⟨false, ["db", "users", "john.json"]⟩, Node.file "true\n")] "users" "john").d.Read
        Faults.none boolCodec
        (Driver.Delete Faults.none ⟨[], "db"⟩
          [(⟨false, ["db"]⟩, Node.dir), (⟨false, ["db", "users"]⟩, Node.dir),
            (⟨false, ["db", "users", "john.json"]⟩, Node.file "true\n")] "users" "john").fs
        "users" "john").ret = Except.error (error.New "resource not found") ∧
      node (Driver.Delete Faults.none ⟨[], "db"⟩
        [(⟨false, ["db"]⟩, Node.dir), (⟨false, ["db", "users"]⟩, Node.dir),
          (⟨false, ["db", "users", "john.json"]⟩, Node.file "true\n")] "users" "john").fs
        (namei (Join ["db", "users"])) = some Node.dir :=
  have h := C8_delete_then_read boolCodec ⟨[], "db"⟩
    [(⟨false, ["db"]⟩, Node.dir), (⟨false, ["db", "users"]⟩, Node.dir),
      (⟨false, ["db", "users", "john.json"]⟩, Node.file "true\n")]
    "users" "john" "true\n" (by decide) (by decide) (by decide) (by decide)
  ⟨h.1, h.2.2.2.1, h.2.2.2.2 (by decide)⟩

/-! ## The map of locks -/

theorem mapGet_mapSet {β : Type} (m : List (String × β)) (k : String) (v : β) (k' : String) :
    mapGet (mapSet m k v) k' = if k' = k then some v else mapGet m k' := by
  by_cases h : k' = k
  · subst h; simp [mapSet, mapGet]
  · have h2 : ¬ k = k' := fun hh => h hh.symm
    simp only [mapSet, mapGet, h, h2, if_false]
    induction m with
    | nil => simp [mapGet, mapDelete]
    | cons e rest ih =>
      obtain ⟨k0, v0⟩ := e
      by_cases h0 : k0 = k
      · subst h0; simp [mapGet, mapDelete, h2, ih]
      · by_cases h1 : k0 = k'
        · subst h1; simp [mapGet, mapDelete, h0]
        · simp [mapGet, mapDelete, h0, h1, ih]

/-- The lookup keeps every binding of the map. -/
theorem getOrCreateMutex_keeps (d : Driver) (c name : String) (m : Nat)
    (h : mapGet d.mutexes name = some m) :
    mapGet (d.getOrCreateMutex c).2.1.mutexes name = some m := by
  unfold Driver.getOrCreateMutex
  cases hc : mapGet d.mutexes c with
  | some m0 => simpa using h
  | none =>
    have hne : name ≠ c := by
      intro hh; rw [hh, hc] at h; simp at h
    simp [mapGet_mapSet, hne, h]

/-- The lookup returns the lock the map binds to the name afterwards. -/
theorem getOrCreateMutex_binds (d : Driver) (c : String) :
    mapGet (d.getOrCreateMutex c).2.1.mutexes c = some (d.getOrCreateMutex c).1 := by
  unfold Driver.getOrCreateMutex
  cases hc : mapGet d.mutexes c with
  | some m0 => simpa using hc
  | none => simp [mapGet_mapSet]

theorem getOrCreateMutex_of_bound (d : Driver) (c : String) (m : Nat)
    (h : mapGet d.mutexes c = some m) : (d.getOrCreateMutex c).1 = m := by
  simp [Driver.getOrCreateMutex, h]

theorem Write_d {V : Type} (env : Faults) (J : Codec V) (d : Driver) (fs : FS)
    (c r : String) (v : V) :
    (d.Write env J fs c r v).d = d ∨ (d.Write env J fs c r v).d = (d.getOrCreateMutex c).2.1 := by
  unfold Driver.Write
  split
  · left; rfl
  · split
    · left; rfl
    · right
      rcases hgm : d.getOrCreateMutex c with ⟨mutex, d1, steps⟩
      simp only
      split
      · rfl
      · split
        · rfl
        · split <;> rfl

theorem Read_d {V : Type} (env : Faults) (J : Codec V) (d : Driver) (fs : FS)
    (c r : String) :
    (d.Read env J fs c r).d = d ∨ (d.Read env J fs c r).d = (d.getOrCreateMutex c).2.1 := by
  unfold Driver.Read
  split
  · left; rfl
  · split
    · left; rfl
    · right
      rcases hgm : d.getOrCreateMutex c with ⟨mutex, d1, steps⟩
      simp only
      split
      · rfl
      · split <;> rfl

theorem Delete_d (env : Faults) (d : Driver) (fs : FS) (c r : String) :
    (d.Delete env fs c r).d = d ∨ (d.Delete env fs c r).d = (d.getOrCreateMutex c).2.1 := by
  unfold Driver.Delete
  split
  · left; rfl
  · split
    · left; rfl
    · right
      rcases hgm : d.getOrCreateMutex c with ⟨mutex, d1, steps⟩
      simp only
      split <;> rfl

theorem ReadAll_d (env : Faults) (d : Driver) (fs : FS) (c : String) :
    (d.ReadAll env fs c).d = d := by
  unfold Driver.ReadAll
  simp only
  split <;> rfl

theorem Step_keeps (d d' : Driver) (h : Step d d') (name : String) (m : Nat)
    (hb : mapGet d.mutexes name = some m) : mapGet d'.mutexes name = some m := by
  cases h with
  | getOrCreateMutex _ c => exact getOrCreateMutex_keeps d c name m hb
  | Write env J _ fs c r v =>
    rcases Write_d env J d fs c r v with h | h
    · rw [h]; exact hb
    · rw [h]; exact getOrCreateMutex_keeps d c name m hb
  | Read env J _ fs c r =>
    rcases Read_d env J d fs c r with h | h
    · rw [h]; exact hb
    · rw [h]; exact getOrCreateMutex_keeps d c name m hb
  | ReadAll env _ fs c => rw [ReadAll_d]; exact hb
  | Delete env _ fs c r =>
    rcases Delete_d env d fs c r with h | h
    · rw [h]; exact hb
    · rw [h]; exact getOrCreateMutex_keeps d c name m hb

/-- Claim C10 (the map of locks only grows and never rebinds): every operation
keeps each binding of the map, the name still bound to the same lock; so after
a `getOrCreateMutex` for a name, and any sequence of operations, another
`getOrCreateMutex` for that name returns the same lock. -/
theorem C10_locks_only_grow :
    (∀ d d', Step d d' → ∀ name m, mapGet d.mutexes name = some m →
        mapGet d'.mutexes name = some m) ∧
      (∀ (d : Driver) (c : String) (d' : Driver),
        Relation.ReflTransGen Step (d.getOrCreateMutex c).2.1 d' →
          (d'.getOrCreateMutex c).1 = (d.getOrCreateMutex c).1) := by
  refine ⟨fun d d' h name m hb => Step_keeps d d' h name m hb, ?_⟩
  intro d c d' hreach
  apply getOrCreateMutex_of_bound
  induction hreach with
  | refl => exact getOrCreateMutex_binds d c
  | tail _ hstep ih => exact Step_keeps _ _ hstep c _ ih

/-- A run of C10: the lock of `users` survives a `Write` to another
collection, which adds a lock of its own. -/
theorem C10_locks_only_grow_witness :
    mapGet (Driver.Write Faults.none boolCodec ⟨[("users", 1)], "db"⟩ [] "logs" "a" true).d.mutexes
        "users" = some 1 ∧
      ((Driver.Write Faults.none boolCodec
          (Driver.getOrCreateMutex ⟨[], "db"⟩ "users").2.1 [] "logs" "a" true).d.getOrCreateMutex
        "users").1 = (Driver.getOrCreateMutex ⟨[], "db"⟩ "users").1 :=
  ⟨C10_locks_only_grow.1 _ _ (Step.Write Faults.none boolCodec ⟨[("users", 1)], "db"⟩ []
      "logs" "a" true) "users" 1 (by decide),
    C10_locks_only_grow.2 ⟨[], "db"⟩ "users" _
      (Relation.ReflTransGen.single (Step.Write Faults.none boolCodec _ [] "logs" "a" true))⟩

/-! ## The guard lock -/

theorem guard_steps (d : Driver) (c : String) (mutex : Nat) (d1 : Driver)
    (steps : List Event) (hg : d.getOrCreateMutex c = (mutex, d1, steps)) (rest : List Event) :
    guardAroundMapOnly false (steps ++ rest) = guardAroundMapOnly false rest := by
  unfold Driver.getOrCreateMutex at hg
  split at hg
  · simp only [Prod.mk.injEq] at hg
    rw [← hg.2.2]
    simp [guardAroundMapOnly]
  · simp only [Prod.mk.injEq] at hg
    rw [← hg.2.2]
    simp [guardAroundMapOnly]

theorem Write_guard {V : Type} (env : Faults) (J : Codec V) (d : Driver) (fs : FS)
    (c r : String) (v : V) : guardAroundMapOnly false (d.Write env J fs c r v).log = true := by
  unfold Driver.Write
  split
  · rfl
  · split
    · rfl
    · rcases hgm : d.getOrCreateMutex c with ⟨mutex, d1, steps⟩
      simp only
      split
      · simp [guard_steps d c mutex d1 steps hgm, guardAroundMapOnly]
      · split
        · simp [guard_steps d c mutex d1 steps hgm, guardAroundMapOnly]
        · split
          · simp [guard_steps d c mutex d1 steps hgm, guardAroundMapOnly]
          · simp [guard_steps d c mutex d1 steps hgm, guardAroundMapOnly]

theorem Read_guard {V : Type} (env : Faults) (J : Codec V) (d : Driver) (fs : FS)
    (c r : String) : guardAroundMapOnly false (d.Read env J fs c r).log = true := by
  unfold Driver.Read
  split
  · rfl
  · split
    · rfl
    · rcases hgm : d.getOrCreateMutex c with ⟨mutex, d1, steps⟩
      simp only
      split
      · simp [guard_steps d c mutex d1 steps hgm, guardAroundMapOnly]
      · split
        · simp [guard_steps d c mutex d1 steps hgm, guardAroundMapOnly]
        · simp [guard_steps d c mutex d1 steps hgm, guardAroundMapOnly]

theorem Delete_guard (env : Faults) (d : Driver) (fs : FS) (c r : String) :
    guardAroundMapOnly false (d.Delete env fs c r).log = true := by
  unfold Driver.Delete
  split
  · rfl
  · split
    · rfl
    · rcases hgm : d.getOrCreateMutex c with ⟨mutex, d1, steps⟩
      simp only
      split
      · simp [guard_steps d c mutex d1 steps hgm, guardAroundMapOnly]
      · simp [guard_steps d c mutex d1 steps hgm, guardAroundMapOnly]

theorem readAllLoop_steps (env : Faults) (fs : FS) (dir : String) (files : List String) :
    ∀ records, ∀ e ∈ (Driver.readAllLoop env fs dir files records).2,
      ∃ path ok, e = Event.sys Call.ReadFile path ok fs := by
  induction files with
  | nil => intro records e he; simp [Driver.readAllLoop] at he
  | cons name files ih =>
    intro records e he
    unfold Driver.readAllLoop at he
    split at he
    · split at he
      · simp only [List.mem_singleton] at he
        exact ⟨_, _, he⟩
      · rcases List.mem_cons.1 he with h | h
        · exact ⟨_, _, h⟩
        · exact ih _ e h
    · exact ih _ e he

/-- Claim C6 as stated fails for `ReadAll`: on the collection `db/users` its
steps are the guard taken, the directory listed, the guard released: the
listing happens while the guard is held. -/
theorem C6_counterexample :
    (Driver.ReadAll Faults.none ⟨[], "db"⟩
        [(⟨false, ["db"]⟩, Node.dir), (⟨false, ["db", "users"]⟩, Node.dir)] "users").log =
      [Event.Lock Mutex.guard,
        Event.sys Call.ReadDir "db/users" true
          [(⟨false, ["db"]⟩, Node.dir), (⟨false, ["db", "users"]⟩, Node.dir)],
        Event.Unlock Mutex.guard] ∧
      guardAroundMapOnly false (Driver.ReadAll Faults.none ⟨[], "db"⟩
        [(⟨false, ["db"]⟩, Node.dir), (⟨false, ["db", "users"]⟩, Node.dir)] "users").log =
        false := by
  decide

/-- Claim C6 (the guard lock), amended: in the steps of `Write`, `Read` and
`Delete` the guard is held only around accesses to the map of locks, never
across a system call; `ReadAll` takes the guard first and releases it last, and
every step in between is a system call: the directory listing, then the file
reads. -/
theorem C6_guard_lock :
    (∀ (V : Type) (env : Faults) (J : Codec V) (d : Driver) (fs : FS) (c r : String) (v : V),
        guardAroundMapOnly false (d.Write env J fs c r v).log = true) ∧
      (∀ (V : Type) (env : Faults) (J : Codec V) (d : Driver) (fs : FS) (c r : String),
        guardAroundMapOnly false (d.Read env J fs c r).log = true) ∧
      (∀ (env : Faults) (d : Driver) (fs : FS) (c r : String),
        guardAroundMapOnly false (d.Delete env fs c r).log = true) ∧
      (∀ (env : Faults) (d : Driver) (fs : FS) (c : String),
        ∃ ok reads, (d.ReadAll env fs c).log =
            Event.Lock Mutex.guard :: Event.sys Call.ReadDir (Join [d.dir, c]) ok fs ::
              (reads ++ [Event.Unlock Mutex.guard]) ∧
          ∀ e ∈ reads, ∃ path ok', e = Event.sys Call.ReadFile path ok' fs) := by
  refine ⟨fun V env J d fs c r v => Write_guard env J d fs c r v,
    fun V env J d fs c r => Read_guard env J d fs c r,
    fun env d fs c r => Delete_guard env d fs c r, ?_⟩
  intro env d fs c
  unfold Driver.ReadAll
  simp only
  split
  · exact ⟨false, [], rfl, by simp⟩
  · rename_i files _
    exact ⟨true, (Driver.readAllLoop env fs (Join [d.dir, c]) files []).2, by simp,
      readAllLoop_steps env fs _ files []⟩

/-! ## Construction -/

/-- When `New` returns nil on a path that was not a regular file, the cleaned
path is a directory afterwards, and so is every directory on the way to it. -/
theorem New_ok_dir (env : Faults) (fs : FS) (dir : String)
    (hret : (New env fs dir).ret = none)
    (hnofile : isFile (node fs (namei (Clean dir))) = false) :
    node (New env fs dir).fs (namei (Clean dir)) = some Node.dir ∧
      ∀ a ∈ ancestors (namei (Clean dir)), node (New env fs dir).fs a = some Node.dir := by
  cases hst : os.Stat env.stat fs (Clean dir) with
  | ok n =>
    simp only [New, hst]
    unfold os.Stat at hst
    split at hst
    · simp at hst
    · split at hst
      · simp at hst
      · rename_i k hres
        obtain ⟨_, hk, hwalk⟩ := (resolve_ok_iff _ _ _).1 hres
        subst hk
        split at hst
        · simp at hst
        · rename_i nd hnd
          refine ⟨?_, (walkDirs_none_iff _ _).1 hwalk⟩
          cases nd with
          | dir => exact hnd
          | file data => rw [hnd] at hnofile; simp [isFile] at hnofile
  | error e =>
    simp only [New, hst] at hret ⊢
    rcases hmk : os.MkdirAll env.mkdir fs (Clean dir) with ⟨err, fs1⟩
    rw [hmk] at hret
    simp only at hret ⊢
    subst hret
    unfold os.MkdirAll at hmk
    split at hmk
    · simp at hmk
    · split at hmk
      · simp at hmk
      · rename_i fs1' hmkd
        simp only [Prod.mk.injEq, true_and] at hmk
        subst hmk
        have hall := mkdirs_ok _ env.mkdir fs (by rw [hmkd])
        rw [hmkd] at hall
        simp only at hall
        exact ⟨hall _ (by simp), fun a ha => hall a (by simp [ha])⟩

/-- Claim C7 at the failing input: a regular file stands at `db`.  `os.Stat`
succeeds on it, so `New("db", nil)` returns a nil error and leaves the file
system as it was: no directory exists at `db`. -/
theorem C7_New_on_regular_file :
    (New Faults.none [(⟨false, ["db"]⟩, Node.file "x")] "db").ret = none ∧
      (New Faults.none [(⟨false, ["db"]⟩, Node.file "x")] "db").fs =
        [(⟨false, ["db"]⟩, Node.file "x")] ∧
      node (New Faults.none [(⟨false, ["db"]⟩, Node.file "x")] "db").fs (namei (Clean "db")) =
        some (Node.file "x") := by
  decide

/-! ## The final path and the temporary path -/

theorem mk_append (a b : String) : String.mk (a.data ++ b.data) = a ++ b := by
  apply String.ext
  simp [String.data_append]

theorem isReal_append (l s : String) (hl : Separator ∉ l.data) (hs : Separator ∉ s.data)
    (hlen : 3 ≤ s.data.length) : isReal (l ++ s) := by
  have hlen2 : 3 ≤ (l ++ s).data.length := by
    simp only [String.data_append, List.length_append]; omega
  refine ⟨?_, ?_, ?_, ?_⟩
  · intro h; rw [h] at hlen2; simp at hlen2
  · intro h; rw [h] at hlen2; simp at hlen2
  · intro h; rw [h] at hlen2; simp at hlen2
  · simp [String.data_append, hl, hs]

theorem joinSep_snoc_append (es : List String) (e s : String) :
    joinSep (es ++ [e]) ++ s.data = joinSep (es ++ [e ++ s]) := by
  induction es with
  | nil => simp [joinSep, String.data_append]
  | cons x es ih =>
    cases es with
    | nil => simp [joinSep, String.data_append]
    | cons y es => simpa [joinSep] using ih

theorem render_snoc_append (R : Bool) (es : List String) (e s : String) :
    (Key.mk R (es ++ [e])).render ++ s = (Key.mk R (es ++ [e ++ s])).render := by
  apply String.ext
  cases R with
  | true => simp [Key.render, String.data_append, joinSep_snoc_append]
  | false => simp [Key.render, String.data_append, joinSep_snoc_append]

theorem Join2 (dir x : String) (hdir : dir ≠ "") : Join [dir, x] = Clean (dir ++ "/" ++ x) := by
  simp [Join, hdir, joinStrings]

theorem Join2_ne_empty (root c : String) (hc : c ≠ "") : Join [root, c] ≠ "" := by
  by_cases hroot : root = ""
  · simp [Join, hroot, hc, Clean_ne_empty]
  · simp [Join, hroot, Clean_ne_empty]

/-- The path `Join [dir, x]` resolves below what `dir` resolves to. -/
theorem namei_Join2 (dir x : String) (hdir : dir ≠ "") :
    namei (Join [dir, x]) =
      ⟨isRooted dir,
        (cleanStack (isRooted dir) (namei dir).elems.reverse (splitSep x.data)).reverse⟩ := by
  rw [Join2 dir x hdir,
    namei_Clean _ (append_ne_empty_left _ _ (append_ne_empty_left _ _ hdir)),
    namei_append_sep dir x hdir]

/-- A name that `filepath.Clean` keeps, joined to a directory, is the entry of
that name in the directory. -/
theorem namei_Join2_real (dir x : String) (hdir : dir ≠ "") (hx : isReal x) :
    namei (Join [dir, x]) = ⟨(namei dir).rooted, (namei dir).elems ++ [x]⟩ := by
  rw [namei_Join2 dir x hdir, splitSep_of_sepFree _ hx.2.2.2]
  have : String.mk x.data = x := rfl
  rw [this]
  show Key.mk _ (cleanStep _ _ _).reverse = _
  rw [cleanStep_real _ _ _ hx]
  simp [namei]

/-- The shape of the final path of a resource and of its temporary path: the
same directory, and a last element that ends in `.json`, respectively in
`.json.tmp`. -/
theorem final_temp_keys (dir r : String) (hdir : dir ≠ "") :
    ∃ R es l, Separator ∉ l.data ∧
      namei (Join [dir, r ++ ".json"]) = ⟨R, es ++ [l ++ ".json"]⟩ ∧
      namei (Join [dir, r ++ ".json"] ++ ".tmp") = ⟨R, es ++ [l ++ ".json" ++ ".tmp"]⟩ := by
  have hsplit := splitSep_append_sepFree r.data ".json".data (by decide)
  have hl : Separator ∉ ((splitSep r.data).getLast?.getD "").data := by
    cases hlast : (splitSep r.data).getLast? with
    | none => simp [Separator]
    | some l => exact splitSep_sepFree r.data l (List.mem_of_getLast?_eq_some hlast)
  have hreal : isReal ((splitSep r.data).getLast?.getD "" ++ ".json") :=
    isReal_append _ _ hl (by decide) (by decide)
  have hkey := namei_Join2 dir (r ++ ".json") hdir
  rw [String.data_append, hsplit, mk_append, cleanStack_append] at hkey
  have hstep : cleanStack (isRooted dir)
      (cleanStack (isRooted dir) (namei dir).elems.reverse (splitSep r.data).dropLast)
      [(splitSep r.data).getLast?.getD "" ++ ".json"] =
      ((splitSep r.data).getLast?.getD "" ++ ".json") ::
        cleanStack (isRooted dir) (namei dir).elems.reverse (splitSep r.data).dropLast := by
    show cleanStep _ _ _ = _
    exact cleanStep_real _ _ _ hreal
  rw [hstep, List.reverse_cons] at hkey
  refine ⟨_, _, _, hl, hkey, ?_⟩
  have hgood := namei_good (Join [dir, r ++ ".json"])
  rw [hkey] at hgood
  simp only [List.reverse_append, List.reverse_cons, List.reverse_nil, List.nil_append,
    List.singleton_append, List.reverse_reverse] at hgood
  have hfinal : Join [dir, r ++ ".json"] = (namei (Join [dir, r ++ ".json"])).render := by
    rw [Join2 dir _ hdir,
      namei_Clean _ (append_ne_empty_left _ _ (append_ne_empty_left _ _ hdir))]
    exact Clean_eq_render _ (append_ne_empty_left _ _ (append_ne_empty_left _ _ hdir))
  rw [hfinal, hkey, render_snoc_append]
  apply namei_render
  simp only [List.reverse_append, List.reverse_cons, List.reverse_nil, List.nil_append,
    List.singleton_append, List.reverse_reverse]
  refine ⟨hgood.1, Or.inl ?_⟩
  rw [String.append_assoc]
  exact isReal_append _ _ hl (by decide) (by decide)

theorem append_ne_self (e s : String) (hs : s ≠ "") : e ++ s ≠ e := by
  intro h
  have := congrArg (fun x => x.data.length) h
  simp only [String.data_append, List.length_append] at this
  have hs' : s.data ≠ [] := fun hh => hs (String.ext hh)
  have := List.length_pos.2 hs'
  omega

/-- The temporary path and the final path name different files. -/
theorem temp_ne_final (dir r : String) (hdir : dir ≠ "") :
    namei (Join [dir, r ++ ".json"] ++ ".tmp") ≠ namei (Join [dir, r ++ ".json"]) := by
  obtain ⟨R, es, l, _, hf, ht⟩ := final_temp_keys dir r hdir
  rw [hf, ht]
  intro h
  simp only [Key.mk.injEq, true_and] at h
  have := List.append_cancel_left h
  simp only [List.cons.injEq, and_true] at this
  exact append_ne_self _ _ (by decide) this

/-! ## Atomic replacement -/

theorem steps_no_sys (d : Driver) (c : String) (mutex : Nat) (d1 : Driver)
    (steps : List Event) (hg : d.getOrCreateMutex c = (mutex, d1, steps))
    (call : Call) (path : String) (ok : Bool) (s : FS) :
    Event.sys call path ok s ∉ steps := by
  unfold Driver.getOrCreateMutex at hg
  split at hg
  · simp only [Prod.mk.injEq] at hg
    rw [← hg.2.2]
    simp
  · simp only [Prod.mk.injEq] at hg
    rw [← hg.2.2]
    simp

theorem mkdirs_other (ks : List Key) :
    ∀ (b : Option Nat) (fs : FS) (k' : Key), k' ∉ ks →
      node (os.mkdirs ks b fs).2 k' = node fs k' := by
  induction ks with
  | nil => intro b fs k' _; simp [os.mkdirs]
  | cons k ks ih =>
    intro b fs k' hk
    simp only [List.mem_cons, not_or] at hk
    unfold os.mkdirs
    cases hn : node fs k with
    | none =>
      simp only
      cases hl : k.legal with
      | false => simp
      | true =>
        cases hb : os.spend b with
        | none => simp
        | some left =>
          simp only [if_true]
          rw [ih left _ k' hk.2, node_set_other _ _ _ _ hk.1]
    | some n =>
      cases n with
      | file data => simp
      | dir => simpa using ih b fs k' hk.2

/-- Creating a directory changes nothing outside the directory and the
directories on the way to it. -/
theorem MkdirAll_other (fault : Option Nat) (fs : FS) (path : String) (k' : Key)
    (hk : k' ∉ ancestors (namei path) ++ [namei path]) :
    node (os.MkdirAll fault fs path).2 k' = node fs k' := by
  rcases MkdirAll_fs fault fs path with h | h
  · rw [h]
  · rw [h]; exact mkdirs_other _ _ _ _ hk

/-- Writing a file changes nothing at another path, whether the write succeeds,
fails, or stops half way. -/
theorem WriteFile_other (fault : Option (Option Nat)) (fs : FS) (name data : String) (k' : Key)
    (h : k' ≠ namei name) : node (os.WriteFile fault fs name data).2 k' = node fs k' := by
  rcases WriteFile_fs fault fs name data with h1 | ⟨_, content, h1⟩
  · rw [h1]
  · rw [h1, node_set_other _ _ _ _ h]

/-- For a resource name without separator, the final path lies in the
collection directory: it is not that directory or one on the way to it. -/
theorem final_below_collection (root c r : String) (hc : c ≠ "")
    (hr : Separator ∉ r.data) :
    namei (Join [Join [root, c], r ++ ".json"]) ∉
      ancestors (namei (Join [root, c])) ++ [namei (Join [root, c])] := by
  rw [namei_Join2_real _ _ (Join2_ne_empty root c hc)
    (isReal_append r ".json" hr (by decide) (by decide))]
  intro h
  rcases List.mem_append.1 h with h | h
  · simp only [ancestors, List.mem_map] at h
    obtain ⟨s, hs, hk⟩ := h
    have hlen := stems_length _ s hs
    simp only [Key.mk.injEq, true_and] at hk
    rw [hk] at hlen
    simp at hlen
  · simp only [List.mem_singleton] at h
    have := congrArg (fun k => k.elems.length) h
    simp at this

/-- Claim C2 as stated fails when the final path is a directory on the way to
the collection: `Write("x.json", "../x", true)` on a store that holds only the
root `db` has the final path `db/x.json`; `os.MkdirAll` of the collection
creates a directory there, the rename onto it fails and `Write` returns an
error.  Nothing was at the final path before, a directory is there afterwards,
and a `Read` of the resource no longer answers "resource not found". -/
theorem C2_counterexample :
    Join [Join ["db", "x.json"], "../x" ++ ".json"] = "db/x.json" ∧
      node [(⟨false, ["db"]⟩, Node.dir)] (namei "db/x.json") = none ∧
      (Driver.Write Faults.none boolCodec ⟨[], "db"⟩ [(⟨false, ["db"]⟩, Node.dir)]
        "x.json" "../x" true).ret =
        some (error.LinkError "rename" "db/x.json.tmp" "db/x.json" Errno.EISDIR) ∧
      node (Driver.Write Faults.none boolCodec ⟨[], "db"⟩ [(⟨false, ["db"]⟩, Node.dir)]
        "x.json" "../x" true).fs (namei "db/x.json") = some Node.dir ∧
      (Driver.Read Faults.none boolCodec ⟨[], "db"⟩ [(⟨false, ["db"]⟩, Node.dir)]
        "x.json" "../x").ret = Except.error (error.New "resource not found") ∧
      (Driver.Read Faults.none boolCodec ⟨[], "db"⟩
        (Driver.Write Faults.none boolCodec ⟨[], "db"⟩ [(⟨false, ["db"]⟩, Node.dir)]
          "x.json" "../x" true).fs "x.json" "../x").ret =
        Except.error (error.PathError "read" "db/x.json" Errno.EISDIR) := by
  decide

/-- Claim C2 (atomic replace), amended: when the final path is not the
collection directory or a directory on the way to it, then in every file system
a `Write` reaches, after the directory creation, after the write of the
temporary file and after the rename, whichever of them fails and however (a
denied creation, a write that stops half way), what exists at the final path is
exactly as it was before the call, the same node or still nothing, unless that
state follows a successful rename, and then it is a regular file that holds the
serialization of the value and a newline.  The same holds of the file system
the call leaves, and a `Write` that returns an error leaves the final path as
it was. -/
theorem C2_atomic_replace {V : Type} (env : Faults) (J : Codec V) (d : Driver) (fs : FS)
    (c r : String) (v : V)
    (hfinal : namei (Join [Join [d.dir, c], r ++ ".json"]) ∉
      ancestors (namei (Join [d.dir, c])) ++ [namei (Join [d.dir, c])]) :
    (∀ call path ok s, Event.sys call path ok s ∈ (d.Write env J fs c r v).log →
        node s (namei (Join [Join [d.dir, c], r ++ ".json"])) =
            node fs (namei (Join [Join [d.dir, c], r ++ ".json"])) ∨
          (call = Call.Rename ∧ ok = true ∧ ∃ b, J.MarshalIndent v = Except.ok b ∧
            node s (namei (Join [Join [d.dir, c], r ++ ".json"])) =
              some (Node.file (b ++ "\n")))) ∧
      (node (d.Write env J fs c r v).fs (namei (Join [Join [d.dir, c], r ++ ".json"])) =
          node fs (namei (Join [Join [d.dir, c], r ++ ".json"])) ∨
        ((d.Write env J fs c r v).ret = none ∧ ∃ b, J.MarshalIndent v = Except.ok b ∧
          node (d.Write env J fs c r v).fs (namei (Join [Join [d.dir, c], r ++ ".json"])) =
            some (Node.file (b ++ "\n")))) ∧
      ((d.Write env J fs c r v).ret ≠ none →
        node (d.Write env J fs c r v).fs (namei (Join [Join [d.dir, c], r ++ ".json"])) =
          node fs (namei (Join [Join [d.dir, c], r ++ ".json"]))) := by
  by_cases hc : c = ""
  · simp [Driver.Write, hc]
  by_cases hr : r = ""
  · simp [Driver.Write, hc, hr]
  have hdir : Join [d.dir, c] ≠ "" := Join2_ne_empty d.dir c hc
  have hkeys := temp_ne_final (Join [d.dir, c]) r hdir
  rcases hg : d.getOrCreateMutex c with ⟨mutex, d1, steps⟩
  have hsteps := steps_no_sys d c mutex d1 steps hg
  rcases hmk : os.MkdirAll env.mkdir fs (Join [d.dir, c]) with ⟨e1, fs1⟩
  have h1 : node fs1 (namei (Join [Join [d.dir, c], r ++ ".json"])) =
      node fs (namei (Join [Join [d.dir, c], r ++ ".json"])) := by
    have := MkdirAll_other env.mkdir fs (Join [d.dir, c]) _ hfinal
    rw [hmk] at this
    exact this
  simp only [Driver.Write, hc, hr, if_false, hg, hmk]
  cases e1 with
  | some err =>
    simp [hsteps, h1]
    intro call path s _ _ hs
    rw [hs]; exact h1
  | none =>
    simp only
    cases hm : J.MarshalIndent v with
    | error err =>
      simp [hsteps, h1]
      intro call path s _ _ hs
      rw [hs]; exact h1
    | ok b =>
      simp only
      rcases hw : os.WriteFile env.write fs1 (Join [Join [d.dir, c], r ++ ".json"] ++ ".tmp")
        (b ++ "\n") with ⟨e2, fs2⟩
      have h2 : node fs2 (namei (Join [Join [d.dir, c], r ++ ".json"])) =
          node fs (namei (Join [Join [d.dir, c], r ++ ".json"])) := by
        have := WriteFile_other env.write fs1
          (Join [Join [d.dir, c], r ++ ".json"] ++ ".tmp") (b ++ "\n")
          (namei (Join [Join [d.dir, c], r ++ ".json"])) (fun h => hkeys h.symm)
        rw [hw] at this
        rw [← h1]
        exact this
      cases e2 with
      | some err =>
        simp only [ne_eq, reduceCtorEq, not_false_eq_true, forall_const, false_and, or_false]
        refine ⟨?_, h2, h2⟩
        intro call path ok s hmem
        simp only [List.append_assoc, List.mem_append, List.mem_cons, List.mem_singleton,
          Event.sys.injEq, reduceCtorEq, List.not_mem_nil, or_false, false_or, hsteps] at hmem
        rcases hmem with ⟨_, _, _, hs⟩ | ⟨_, _, _, hs⟩
        · left; rw [hs]; exact h1
        · left; rw [hs]; exact h2
      | none =>
        simp only
        obtain ⟨_, hnd, _, hsrc⟩ := WriteFile_ok env.write fs1 _ _ (by rw [hw])
        rw [hw] at hsrc
        simp only at hsrc
        rcases hrn : os.Rename env.rename fs2 (Join [Join [d.dir, c], r ++ ".json"] ++ ".tmp")
          (Join [Join [d.dir, c], r ++ ".json"]) with ⟨e3, fs3⟩
        have h3 : (e3 ≠ none ∧ node fs3 (namei (Join [Join [d.dir, c], r ++ ".json"])) =
              node fs (namei (Join [Join [d.dir, c], r ++ ".json"]))) ∨
            (e3 = none ∧ node fs3 (namei (Join [Join [d.dir, c], r ++ ".json"])) =
              some (Node.file (b ++ "\n"))) := by
          rcases Rename_file env.rename fs2 _ (Join [Join [d.dir, c], r ++ ".json"]) _ hsrc with
            ⟨hbad, hsame⟩ | ⟨hgood, _, hcase⟩
          · rw [hrn] at hbad hsame
            simp only at hbad hsame
            left; rw [hsame]; exact ⟨hbad, h2⟩
          · rw [hrn] at hgood hcase
            simp only at hgood hcase
            right
            refine ⟨hgood, ?_⟩
            rcases hcase with ⟨heq, _⟩ | ⟨_, hnd2, hlegal, hfs3⟩
            · exact absurd heq hkeys
            · rw [hfs3]
              exact node_set_self _ _ _ (not_implicit_of_node_ne_dir fs2 _ hnd2) hlegal
        refine ⟨?_, ?_, ?_⟩
        · intro call path ok s hmem
          simp only [List.append_assoc, List.mem_append, List.mem_cons, List.mem_singleton,
            Event.sys.injEq, reduceCtorEq, List.not_mem_nil, or_false, false_or, hsteps] at hmem
          rcases hmem with ⟨_, _, _, hs⟩ | ⟨_, _, _, hs⟩ | ⟨hcall, _, hok, hs⟩
          · left; rw [hs]; exact h1
          · left; rw [hs]; exact h2
          · rcases h3 with ⟨_, h3⟩ | ⟨he3, h3⟩
            · left; rw [hs]; exact h3
            · right
              refine ⟨hcall, ?_, b, rfl, by rw [hs]; exact h3⟩
              rw [hok, he3]; rfl
        · rcases h3 with ⟨_, h3⟩ | ⟨he3, h3⟩
          · left; exact h3
          · right; exact ⟨he3, b, rfl, h3⟩
        · intro hne
          rcases h3 with ⟨_, h3⟩ | ⟨he3, _⟩
          · exact h3
          · exact absurd he3 hne

/-- A run of C2: `true` written to `db/users/john.json` over the document
`false`. -/
theorem C2_atomic_replace_witness :
    node (Driver.Write Faults.none boolCodec ⟨[], "db"⟩
        [(⟨false, ["db"]⟩, Node.dir), (⟨false, ["db", "users"]⟩, Node.dir),
          (⟨false, ["db", "users", "john.json"]⟩, Node.file "false\n")]
        "users" "john" true).fs (namei (Join [Join ["db", "users"], "john" ++ ".json"])) =
        node [(⟨false, ["db"]⟩, Node.dir), (⟨false, ["db", "users"]⟩, Node.dir),
          (⟨false, ["db", "users", "john.json"]⟩, Node.file "false\n")]
          (namei (Join [Join ["db", "users"], "john" ++ ".json"])) ∨
      ((Driver.Write Faults.none boolCodec ⟨[], "db"⟩
          [(⟨false, ["db"]⟩, Node.dir), (⟨false, ["db", "users"]⟩, Node.dir),
            (⟨false, ["db", "users", "john.json"]⟩, Node.file "false\n")]
          "users" "john" true).ret = none ∧
        ∃ b, boolCodec.MarshalIndent true = Except.ok b ∧
          node (Driver.Write Faults.none boolCodec ⟨[], "db"⟩
            [(⟨false, ["db"]⟩, Node.dir), (⟨false, ["db", "users"]⟩, Node.dir),
              (⟨false, ["db", "users", "john.json"]⟩, Node.file "false\n")]
            "users" "john" true).fs (namei (Join [Join ["db", "users"], "john" ++ ".json"])) =
            some (Node.file (b ++ "\n"))) :=
  (C2_atomic_replace Faults.none boolCodec ⟨[], "db"⟩
    [(⟨false, ["db"]⟩, Node.dir), (⟨false, ["db", "users"]⟩, Node.dir),
      (⟨false, ["db", "users", "john.json"]⟩, Node.file "false\n")]
    "users" "john" true (by decide)).2.1

/-! ## Write, then ReadAll -/

theorem Ext_json (r : String) : Ext (r ++ ".json") = ".json" := by
  have h : (r ++ ".json").data.reverse = 'n' :: 'o' :: 's' :: 'j' :: '.' :: r.data.reverse := by
    simp [String.data_append]
  unfold filepath.Ext
  rw [h]
  rfl

theorem lookup_mem (fs : FS) (k : Key) (n : Node) (h : lookup fs k = some n) : (k, n) ∈ fs := by
  induction fs with
  | nil => simp [lookup] at h
  | cons e rest ih =>
    obtain ⟨k0, n0⟩ := e
    unfold lookup at h
    split at h
    · rename_i hk
      simp only [Option.some.injEq] at h
      subst hk; subst h
      simp
    · exact List.mem_cons_of_mem _ (ih h)

/-- A node below a directory is listed among its entries. -/
theorem mem_entries (fs : FS) (R : Bool) (es : List String) (x : String) (n : Node)
    (hl : (Key.mk R (es ++ [x])).legal = true)
    (h : (Key.mk R (es ++ [x]), n) ∈ fs) : x ∈ entries fs ⟨R, es⟩ := by
  unfold entries
  rw [(List.perm_insertionSort _ _).mem_iff, List.mem_dedup, List.mem_filterMap]
  exact ⟨_, h, by simp [hl]⟩

/-- The loop of `ReadAll` either stores the content of the entry `x`, or stops
at another entry that cannot be read. -/
theorem readAllLoop_target (env : Faults) (henv : env.readFile = false) (fs : FS)
    (dir x dx : String) (hext : Ext x = ".json")
    (hread : os.ReadFile false fs (Join [dir, x]) = Except.ok dx) (files : List String) :
    ∀ records, (x ∈ files ∨ mapGet records x = some dx) →
      (∃ m, (Driver.readAllLoop env fs dir files records).1 = Except.ok m ∧
          mapGet m x = some dx) ∨
        (∃ name e, name ∈ files ∧ name ≠ x ∧ Ext name = ".json" ∧
          os.ReadFile false fs (Join [dir, name]) = Except.error e ∧
          (Driver.readAllLoop env fs dir files records).1 = Except.error e) := by
  induction files with
  | nil =>
    intro records h
    left
    rcases h with h | h
    · cases h
    · exact ⟨records, rfl, h⟩
  | cons n files ih =>
    intro records h
    unfold Driver.readAllLoop
    by_cases hn : Ext n = ".json"
    · simp only [hn, if_true]
      rw [henv]
      cases hrd : os.ReadFile false fs (Join [dir, n]) with
      | error e =>
        right
        refine ⟨n, e, by simp, ?_, hn, hrd, rfl⟩
        intro hh; rw [hh, hread] at hrd; cases hrd
      | ok data =>
        simp only
        have hnext : x ∈ files ∨ mapGet (mapSet records n data) x = some dx := by
          by_cases hxn : x = n
          · right
            subst hxn
            rw [hread] at hrd
            cases hrd
            simp [mapGet_mapSet]
          · rcases h with h | h
            · rcases List.mem_cons.1 h with h | h
              · exact absurd h hxn
              · left; exact h
            · right; simp [mapGet_mapSet, hxn, h]
        rcases ih _ hnext with h1 | ⟨name, e, hmem, hne, hx, hr, he⟩
        · left; exact h1
        · right; exact ⟨name, e, List.mem_cons_of_mem _ hmem, hne, hx, hr, he⟩
    · simp only [hn, if_false]
      have hxn : x ≠ n := by intro hh; rw [hh] at hext; exact hn hext
      have hnext : x ∈ files ∨ mapGet records x = some dx := by
        rcases h with h | h
        · rcases List.mem_cons.1 h with h | h
          · exact absurd h hxn
          · left; exact h
        · right; exact h
      rcases ih _ hnext with h1 | ⟨name, e, hmem, hne, hx, hr, he⟩
      · left; exact h1
      · right; exact ⟨name, e, List.mem_cons_of_mem _ hmem, hne, hx, hr, he⟩

/-- When the environment fails every file read, the loop of `ReadAll` stops
with an error as soon as the directory has a `.json` entry. -/
theorem readAllLoop_fault (env : Faults) (henv : env.readFile = true) (fs : FS)
    (dir x : String) (hext : Ext x = ".json") (files : List String) :
    ∀ records, x ∈ files →
      ∃ e, (Driver.readAllLoop env fs dir files records).1 = Except.error e := by
  induction files with
  | nil => intro records h; cases h
  | cons n files ih =>
    intro records h
    unfold Driver.readAllLoop
    by_cases hn : Ext n = ".json"
    · simp [hn, henv, os.ReadFile]
    · simp only [hn, if_false]
      rcases List.mem_cons.1 h with h | h
      · rw [h] at hext; exact absurd hext hn
      · exact ih records h

/-- Claim C5 as stated fails for a resource name with a separator:
`Write("users", "a/b", true)` returns nil and writes `db/users/a/b.json`, and
`ReadAll("users")`, which only lists `db/users`, returns an empty mapping: no
key `a/b.json`. -/
theorem C5_counterexample :
    (Driver.Write Faults.none boolCodec ⟨[], "db"⟩ fsNestedCollection "users" "a/b" true).ret =
        none ∧
      fileAt (Driver.Write Faults.none boolCodec ⟨[], "db"⟩ fsNestedCollection
        "users" "a/b" true).fs "db/users/a/b.json" = some "true\n" ∧
      ((Driver.Write Faults.none boolCodec ⟨[], "db"⟩ fsNestedCollection
          "users" "a/b" true).d.ReadAll Faults.none
        (Driver.Write Faults.none boolCodec ⟨[], "db"⟩ fsNestedCollection
          "users" "a/b" true).fs "users").ret = Except.ok [] ∧
      mapGet ([] : List (String × String)) ("a/b" ++ ".json") = none := by
  decide

/-- Claim C5 (write, then read all), amended: when the names are not empty and
the resource name has no separator, a `Write` that returns nil leaves in the
file at the final path the serialization of the value and one newline; whenever
a `ReadAll` of the collection that follows returns a mapping, the key
`r + ".json"` has exactly that content in it; and in an environment where a
system call fails only for a reason visible in the file system, `ReadAll`
returns a mapping unless it stops with the error of reading another `.json`
entry of the directory. -/
theorem C5_write_then_readAll {V : Type} (env : Faults) (J : Codec V) (d : Driver) (fs : FS)
    (c r : String) (v : V) (hc : c ≠ "") (hr : r ≠ "") (hsep : Separator ∉ r.data)
    (hw : (d.Write env J fs c r v).ret = none) :
    ∃ b, J.MarshalIndent v = Except.ok b ∧
      fileAt (d.Write env J fs c r v).fs (Join [Join [d.dir, c], r ++ ".json"]) =
        some (b ++ "\n") ∧
      (∀ envR m, ((d.Write env J fs c r v).d.ReadAll envR
          (d.Write env J fs c r v).fs c).ret = Except.ok m →
        mapGet m (r ++ ".json") = some (b ++ "\n")) ∧
      ((∃ m, ((d.Write env J fs c r v).d.ReadAll Faults.none
            (d.Write env J fs c r v).fs c).ret = Except.ok m) ∨
        (∃ name e, name ≠ r ++ ".json" ∧ Ext name = ".json" ∧
          os.ReadFile false (d.Write env J fs c r v).fs (Join [Join [d.dir, c], name]) =
            Except.error e ∧
          ((d.Write env J fs c r v).d.ReadAll Faults.none
            (d.Write env J fs c r v).fs c).ret = Except.error e)) := by
  obtain ⟨b, hb, hnode, hwalk, hne⟩ := Write_ok_state env J d fs c r v hc hr hw
  have hdirne : Join [d.dir, c] ≠ "" := Join2_ne_empty d.dir c hc
  have hreal : isReal (r ++ ".json") := isReal_append r ".json" hsep (by decide) (by decide)
  have hkey := namei_Join2_real (Join [d.dir, c]) (r ++ ".json") hdirne hreal
  have hddir := Write_dir env J d fs c r v
  generalize (d.Write env J fs c r v).fs = fs' at hnode hwalk ⊢
  generalize (d.Write env J fs c r v).d = d' at hddir ⊢
  refine ⟨b, hb, by simp [fileAt, hnode], ?_⟩
  have hdirs := (walkDirs_none_iff _ _).1 hwalk
  rw [hkey] at hdirs hnode
  have hanc : ancestors ⟨(namei (Join [d.dir, c])).rooted,
      (namei (Join [d.dir, c])).elems ++ [r ++ ".json"]⟩ =
      ancestors (namei (Join [d.dir, c])) ++ [namei (Join [d.dir, c])] :=
    ancestors_snoc _ _ _
  rw [hanc] at hdirs
  have hres : resolve fs' (Join [d.dir, c]) = Except.ok (namei (Join [d.dir, c])) :=
    (resolve_ok_iff _ _ _).2 ⟨hdirne, rfl,
      (walkDirs_none_iff _ _).2 (fun a ha => hdirs a (by simp [ha]))⟩
  have hdirnode : node fs' (namei (Join [d.dir, c])) = some Node.dir := hdirs _ (by simp)
  have hlist : os.ReadDir false fs' (Join [d.dir, c]) =
      Except.ok (entries fs' (namei (Join [d.dir, c]))) := by
    simp [os.ReadDir, hres, hdirnode]
  obtain ⟨hni, hlegal⟩ := legal_of_file fs' _ _ hnode
  have hmem : r ++ ".json" ∈ entries fs' (namei (Join [d.dir, c])) := by
    apply mem_entries fs' _ _ _ (Node.file (b ++ "\n")) hlegal
    apply lookup_mem
    simpa [node, hni, hlegal] using hnode
  have hread : os.ReadFile false fs' (Join [Join [d.dir, c], r ++ ".json"]) =
      Except.ok (b ++ "\n") := by
    have hres2 : resolve fs' (Join [Join [d.dir, c], r ++ ".json"]) =
        Except.ok (namei (Join [Join [d.dir, c], r ++ ".json"])) :=
      (resolve_ok_iff _ _ _).2 ⟨hne, rfl, hwalk⟩
    simp [os.ReadFile, hres2, hkey, hnode]
  constructor
  · intro envR m hm
    cases hrd : envR.readDir with
    | true => simp [Driver.ReadAll, hddir, hrd, os.ReadDir] at hm
    | false =>
      simp only [Driver.ReadAll, hddir, hrd, hlist] at hm
      cases hrf : envR.readFile with
      | true =>
        obtain ⟨e, he⟩ := readAllLoop_fault envR hrf fs' (Join [d.dir, c]) (r ++ ".json")
          (Ext_json r) (entries fs' (namei (Join [d.dir, c]))) [] hmem
        rw [he] at hm
        cases hm
      | false =>
        rcases readAllLoop_target envR hrf fs' (Join [d.dir, c]) (r ++ ".json") (b ++ "\n")
            (Ext_json r) hread (entries fs' (namei (Join [d.dir, c]))) [] (Or.inl hmem) with
          ⟨m', h1, h2⟩ | ⟨_, e, _, _, _, _, h4⟩
        · rw [h1] at hm
          cases hm
          exact h2
        · rw [h4] at hm
          cases hm
  · have hnone : Faults.none.readDir = false := rfl
    simp only [Driver.ReadAll, hddir, hnone, hlist]
    rcases readAllLoop_target Faults.none rfl fs' (Join [d.dir, c]) (r ++ ".json") (b ++ "\n")
        (Ext_json r) hread (entries fs' (namei (Join [d.dir, c]))) [] (Or.inl hmem) with
      ⟨m, h, _⟩ | ⟨name, e, _, h1, h2, h3, h4⟩
    · left; exact ⟨m, h⟩
    · right; exact ⟨name, e, h1, h2, h3, h4⟩

/-- A run of C5: `true` written to `db/users/john.json`, then the collection
read. -/
theorem C5_write_then_readAll_witness :
    ∃ b, boolCodec.MarshalIndent true = Except.ok b ∧
      fileAt (Driver.Write Faults.none boolCodec ⟨[], "db"⟩ [] "users" "john" true).fs
        (Join [Join ["db", "users"], "john" ++ ".json"]) = some (b ++ "\n") ∧
      mapGet [("john.json", "true\n")] ("john" ++ ".json") = some (b ++ "\n") :=
  have h := C5_write_then_readAll Faults.none boolCodec ⟨[], "db"⟩ [] "users" "john" true
    (by decide) (by decide) (by decide) (by decide)
  h.imp (fun _ hb => ⟨hb.1, hb.2.1, hb.2.2.1 Faults.none [("john.json", "true\n")] (by decide)⟩)

/-! ## Resources and their files -/

theorem Remove_fs (fault : Bool) (fs : FS) (name : String) :
    (os.Remove fault fs name).2 = fs ∨ (os.Remove fault fs name).2 = erase fs (namei name) := by
  unfold os.Remove
  split
  · left; rfl
  · split
    · left; rfl
    · rename_i k hres
      have hk : k = namei name := ((resolve_ok_iff fs name k).1 hres).2.1
      subst hk
      split
      · left; rfl
      · right; rfl
      · split
        · left; rfl
        · split
          · left; rfl
          · right; rfl

/-- `Write` changes nothing outside the collection directory and the
directories on the way to it, the temporary path and the final path. -/
theorem Write_frame {V : Type} (env : Faults) (J : Codec V) (d : Driver) (fs : FS)
    (c r : String) (v : V) (k' : Key)
    (h1 : k' ∉ ancestors (namei (Join [d.dir, c])) ++ [namei (Join [d.dir, c])])
    (h2 : k' ≠ namei (Join [Join [d.dir, c], r ++ ".json"] ++ ".tmp"))
    (h3 : k' ≠ namei (Join [Join [d.dir, c], r ++ ".json"])) :
    node (d.Write env J fs c r v).fs k' = node fs k' := by
  by_cases hc : c = ""
  · simp [Driver.Write, hc]
  by_cases hr : r = ""
  · simp [Driver.Write, hc, hr]
  rcases hg : d.getOrCreateMutex c with ⟨mutex, d1, steps⟩
  rcases hmk : os.MkdirAll env.mkdir fs (Join [d.dir, c]) with ⟨e1, fs1⟩
  have hfs1 : node fs1 k' = node fs k' := by
    have := MkdirAll_other env.mkdir fs (Join [d.dir, c]) k' h1
    rw [hmk] at this
    exact this
  simp only [Driver.Write, hc, hr, if_false, hg, hmk]
  cases e1 with
  | some err => exact hfs1
  | none =>
    simp only
    cases hm : J.MarshalIndent v with
    | error err => exact hfs1
    | ok b =>
      simp only
      rcases hw : os.WriteFile env.write fs1 (Join [Join [d.dir, c], r ++ ".json"] ++ ".tmp")
        (b ++ "\n") with ⟨e2, fs2⟩
      have hfs2 : node fs2 k' = node fs k' := by
        have := WriteFile_other env.write fs1 _ (b ++ "\n") k' h2
        rw [hw] at this
        rw [← hfs1]
        exact this
      cases e2 with
      | some err => exact hfs2
      | none =>
        simp only
        obtain ⟨_, hnd, _, hsrc⟩ := WriteFile_ok env.write fs1 _ _ (by rw [hw])
        rw [hw] at hsrc
        simp only at hsrc
        rcases Rename_file env.rename fs2 _ (Join [Join [d.dir, c], r ++ ".json"]) _ hsrc with
          ⟨_, hsame⟩ | ⟨_, _, ⟨_, hsame⟩ | ⟨_, _, _, hfs3⟩⟩
        · rw [hsame]; exact hfs2
        · rw [hsame]; exact hfs2
        · rw [hfs3, node_set_other _ _ _ _ h3, node_erase_other _ _ _ h2]
          exact hfs2

/-- `Delete` changes nothing but the path of the resource. -/
theorem Delete_frame (env : Faults) (d : Driver) (fs : FS) (c r : String) (k' : Key)
    (h : k' ≠ namei (Join [d.dir, c, r ++ ".json"])) :
    node (d.Delete env fs c r).fs k' = node fs k' := by
  by_cases hc : c = ""
  · simp [Driver.Delete, hc]
  by_cases hr : r = ""
  · simp [Driver.Delete, hc, hr]
  rcases hg : d.getOrCreateMutex c with ⟨mutex, d1, steps⟩
  simp only [Driver.Delete, hc, hr, if_false, hg]
  split
  · rfl
  · simp only
    rcases Remove_fs env.remove fs (Join [d.dir, c, r ++ ".json"]) with h1 | h1
    · rw [h1]
    · rw [h1, node_erase_other _ _ _ h]

theorem isRooted_real (c : String) (hc : isReal c) : isRooted c = false := by
  cases hd : c.data with
  | nil => exact absurd (String.ext hd) hc.1
  | cons x xs =>
    have := hc.2.2.2
    rw [hd] at this
    simp only [List.mem_cons, not_or] at this
    have hx : ¬ x = Separator := fun h => this.1 h.symm
    simp [isRooted, hd, hx]

/-- The collection directory, for a collection name that is a plain name. -/
theorem namei_collection (root c : String) (hc : isReal c) :
    namei (Join [root, c]) = ⟨(namei root).rooted, (namei root).elems ++ [c]⟩ := by
  by_cases hroot : root = ""
  · subst hroot
    have h1 : Join ["", c] = Clean c := by simp [Join, hc.1, joinStrings]
    rw [h1, namei_Clean c hc.1]
    have h2 : namei "" = ⟨false, []⟩ := by decide
    rw [h2]
    simp only [namei, isRooted_real c hc, splitSep_of_sepFree _ hc.2.2.2, List.nil_append]
    have : String.mk c.data = c := rfl
    rw [this]
    show Key.mk false (cleanStep false [] c).reverse = _
    rw [cleanStep_real _ _ _ hc]
    rfl
  · exact namei_Join2_real root c hroot hc

/-- The final path of a resource, for plain names. -/
theorem namei_resource (root c r : String) (hc : isReal c) (hr : Separator ∉ r.data) :
    namei (Join [Join [root, c], r ++ ".json"]) =
      ⟨(namei root).rooted, (namei root).elems ++ [c] ++ [r ++ ".json"]⟩ := by
  rw [namei_Join2_real _ _ (Join2_ne_empty root c hc.1)
    (isReal_append r ".json" hr (by decide) (by decide)), namei_collection root c hc]

theorem append_right_cancel (a b s : String) (h : a ++ s = b ++ s) : a = b := by
  have := congrArg String.data h
  simp only [String.data_append] at this
  exact String.ext (List.append_cancel_right this)

/-- The temporary path of a resource, for plain names. -/
theorem namei_temp (root c r : String) (hc : isReal c) (hr : Separator ∉ r.data) :
    namei (Join [Join [root, c], r ++ ".json"] ++ ".tmp") =
      ⟨(namei root).rooted, (namei root).elems ++ [c] ++ [r ++ ".json" ++ ".tmp"]⟩ := by
  obtain ⟨R, es, l, _, hf, ht⟩ := final_temp_keys (Join [root, c]) r (Join2_ne_empty root c hc.1)
  rw [namei_resource root c r hc hr] at hf
  simp only [Key.mk.injEq] at hf
  obtain ⟨hR, hes⟩ := hf
  have := List.append_inj' hes rfl
  simp only [List.cons.injEq, and_true] at this
  rw [ht, ← hR, ← this.1, ← this.2]

theorem tmp_ne_json (a b : String) : a ++ ".json" ++ ".tmp" ≠ b ++ ".json" := by
  intro h
  have := congrArg (fun s => s.data.reverse.head?) h
  simp [String.data_append] at this

/-- Claim C9 as stated fails for names with a separator: the distinct pairs
`("a/b", "c")` and `("a", "b/c")` resolve to the same file `db/a/b/c.json`, so
a successful `Write("a/b", "c", true)` creates the file that `Read("a", "b/c", _)`
reads. -/
theorem C9_counterexample :
    (("a/b", "c") : String × String) ≠ ("a", "b/c") ∧
      Join ["db", "a/b", "c" ++ ".json"] = sharedPath ∧
      Join ["db", "a", "b/c" ++ ".json"] = sharedPath ∧
      (Driver.Write Faults.none boolCodec ⟨[], "db"⟩ [(⟨false, ["db"]⟩, Node.dir)]
        "a/b" "c" true).ret = none ∧
      node [(⟨false, ["db"]⟩, Node.dir)] (namei (Join ["db", "a", "b/c" ++ ".json"])) = none ∧
      node (Driver.Write Faults.none boolCodec ⟨[], "db"⟩ [(⟨false, ["db"]⟩, Node.dir)]
        "a/b" "c" true).fs (namei (Join ["db", "a", "b/c" ++ ".json"])) =
        some (Node.file "true\n") := by
  decide

/-- Claim C9 (a resource is its pair of names), amended: for collection names
that are plain names (not empty, not `.` or `..`, without separator) and
resource names without separator, two distinct pairs resolve to distinct files,
the temporary path of one is not the file of the other, and a `Write` or a
`Delete` on one pair, whatever its outcome and the environment, leaves what
exists at the path of the other, presence and content, unchanged. -/
theorem C9_resource_identity {V : Type} (envW envD : Faults) (J : Codec V) (d : Driver)
    (fs : FS) (c1 r1 c2 r2 : String) (v : V) (hc1 : isReal c1) (hc2 : isReal c2)
    (hr1 : Separator ∉ r1.data) (hr2 : Separator ∉ r2.data) (hne : (c1, r1) ≠ (c2, r2)) :
    namei (Join [d.dir, c1, r1 ++ ".json"]) ≠ namei (Join [d.dir, c2, r2 ++ ".json"]) ∧
      namei (Join [Join [d.dir, c1], r1 ++ ".json"] ++ ".tmp") ≠
        namei (Join [d.dir, c2, r2 ++ ".json"]) ∧
      node (d.Write envW J fs c1 r1 v).fs (namei (Join [d.dir, c2, r2 ++ ".json"])) =
        node fs (namei (Join [d.dir, c2, r2 ++ ".json"])) ∧
      node (d.Delete envD fs c1 r1).fs (namei (Join [d.dir, c2, r2 ++ ".json"])) =
        node fs (namei (Join [d.dir, c2, r2 ++ ".json"])) := by
  have hk1 : namei (Join [d.dir, c1, r1 ++ ".json"]) =
      ⟨(namei d.dir).rooted, (namei d.dir).elems ++ [c1] ++ [r1 ++ ".json"]⟩ := by
    rw [← Join_Join _ _ _ hc1.1]; exact namei_resource d.dir c1 r1 hc1 hr1
  have hk2 : namei (Join [d.dir, c2, r2 ++ ".json"]) =
      ⟨(namei d.dir).rooted, (namei d.dir).elems ++ [c2] ++ [r2 ++ ".json"]⟩ := by
    rw [← Join_Join _ _ _ hc2.1]; exact namei_resource d.dir c2 r2 hc2 hr2
  have hkt := namei_temp d.dir c1 r1 hc1 hr1
  have hfinal : namei (Join [d.dir, c2, r2 ++ ".json"]) ≠
      namei (Join [d.dir, c1, r1 ++ ".json"]) := by
    rw [hk1, hk2]
    intro h
    simp only [Key.mk.injEq, true_and, List.append_assoc, List.singleton_append,
      List.append_cancel_left_eq, List.cons.injEq, and_true] at h
    exact hne (by rw [h.1, append_right_cancel _ _ _ h.2])
  have htemp : namei (Join [d.dir, c2, r2 ++ ".json"]) ≠
      namei (Join [Join [d.dir, c1], r1 ++ ".json"] ++ ".tmp") := by
    rw [hkt, hk2]
    intro h
    simp only [Key.mk.injEq, true_and, List.append_assoc, List.singleton_append,
      List.append_cancel_left_eq, List.cons.injEq, and_true] at h
    exact tmp_ne_json _ _ h.2.symm
  have hdirs : namei (Join [d.dir, c2, r2 ++ ".json"]) ∉
      ancestors (namei (Join [d.dir, c1])) ++ [namei (Join [d.dir, c1])] := by
    rw [hk2, namei_collection d.dir c1 hc1]
    intro h
    rcases List.mem_append.1 h with h | h
    · simp only [ancestors, List.mem_map] at h
      obtain ⟨s, hs, hk⟩ := h
      have hlen := stems_length _ s hs
      simp only [Key.mk.injEq, true_and] at hk
      rw [hk] at hlen
      simp at hlen
    · simp only [List.mem_singleton, Key.mk.injEq, true_and] at h
      have := congrArg List.length h
      simp at this
  refine ⟨fun h => hfinal h.symm, fun h => htemp h.symm, ?_, ?_⟩
  · apply Write_frame envW J d fs c1 r1 v _ hdirs htemp
    rw [Join_Join _ _ _ hc1.1]
    exact hfinal
  · exact Delete_frame envD d fs c1 r1 _ hfinal

/-- A run of C9: a `Write` and a `Delete` on `users/john` next to the document
`users/jane`. -/
theorem C9_resource_identity_witness :
    namei (Join ["db", "users", "john" ++ ".json"]) ≠
        namei (Join ["db", "users", "jane" ++ ".json"]) ∧
      namei (Join [Join ["db", "users"], "john" ++ ".json"] ++ ".tmp") ≠
        namei (Join ["db", "users", "jane" ++ ".json"]) ∧
      node (Driver.Write Faults.none boolCodec ⟨[], "db"⟩
        [(⟨false, ["db"]⟩, Node.dir), (⟨false, ["db", "users"]⟩, Node.dir),
          (⟨false, ["db", "users", "jane.json"]⟩, Node.file "false\n")]
        "users" "john" true).fs (namei (Join ["db", "users", "jane" ++ ".json"])) =
        node [(⟨false, ["db"]⟩, Node.dir), (⟨false, ["db", "users"]⟩, Node.dir),
          (⟨false, ["db", "users", "jane.json"]⟩, Node.file "false\n")]
          (namei (Join ["db", "users", "jane" ++ ".json"])) ∧
      node (Driver.Delete Faults.none ⟨[], "db"⟩
        [(⟨false, ["db"]⟩, Node.dir), (⟨false, ["db", "users"]⟩, Node.dir),
          (⟨false, ["db", "users", "jane.json"]⟩, Node.file "false\n")]
        "users" "john").fs (namei (Join ["db", "users", "jane" ++ ".json"])) =
        node [(⟨false, ["db"]⟩, Node.dir), (⟨false, ["db", "users"]⟩, Node.dir),
          (⟨false, ["db", "users", "jane.json"]⟩, Node.file "false\n")]
          (namei (Join ["db", "users", "jane" ++ ".json"])) :=
  C9_resource_identity Faults.none Faults.none boolCodec ⟨[], "db"⟩
    [(⟨false, ["db"]⟩, Node.dir), (⟨false, ["db", "users"]⟩, Node.dir),
      (⟨false, ["db", "users", "jane.json"]⟩, Node.file "false\n")]
    "users" "john" "users" "jane" true
    ⟨by decide, by decide, by decide, by decide⟩ ⟨by decide, by decide, by decide, by decide⟩
    (by decide) (by decide) (by decide)

end GoGo
